import Mathlib

/-!
Verification development for ip2map.py.

The file shallowly embeds the data model and the operations of the script:
Python dictionaries built by dict(zip(headers, row)) become association
lists (`InputRecord`), the `uniq_list` deduplicator becomes an
`Except`-valued function (Python raises KeyError on a record that lacks
the key column), the `ip2loc` resolver is modelled against an abstract
lookup oracle returning the parsed response (or `none` for a body that
fails to parse, which the source meets with `break`), the merge loop of
`main` (lines 435-449), the statistics pivots (lines 477-514) and the
label-column handling (lines 459-470) are translated statement by
statement, and the two validation regexes of `is_valid_ip` are run by a
small backtracking matcher (`matchR`) over a regex syntax tree
transcribed from the source pattern.
-/

set_option maxHeartbeats 1000000
set_option maxRecDepth 100000

/-! ## Python string helpers -/

/-- Builds the test that a list of characters begins with another
(used to implement the Python substring operator below). -/
def chLead : List Char → List Char → Bool
  | [], _ => true
  | _ :: _, [] => false
  | a :: as, b :: bs => a == b && chLead as bs

/-- Tests whether the first list occurs as a contiguous run inside the second. -/
def chInside (n : List Char) : List Char → Bool
  | [] => n.isEmpty
  | c :: cs => chLead n (c :: cs) || chInside n cs

/-- Python `needle in hay` on strings: substring containment.  The source
uses it both for `k not in ip_col_key` (line 442) and for the
`not key in 'N/A'` sentinel tests (lines 485, 498, 503). -/
def pyIn (needle hay : String) : Bool := chInside needle.toList hay.toList

/-- Python `str.replace("/", "")` as used on the record field at
index 6 (lines 504 and 512). -/
def stripSlash (s : String) : String := String.mk (s.toList.filter (fun c => c != '/'))

/-! ## Input records -/

/-- One row of the input file, as produced by `dict(zip(headers, row))`:
a mapping from column name to cell value, modelled as an association
list in header order. -/
abbrev InputRecord := List (String × String)

/-- Python `x[key]` on an input record, as an `Option` (a missing key
raises `KeyError` in the source, which callers here surface as `none`). -/
def getVal? (r : InputRecord) (k : String) : Option String :=
  (r.find? (fun p => p.1 == k)).map Prod.snd

/-- Membership in the model of the Python `seen` set. -/
def seenHas : List String → String → Bool
  | [], _ => false
  | s :: ss, v => s == v || seenHas ss v

/-! ## uniq_list (ip2map.py lines 94-101)

    seen = set()
    return [x for x in list_dict if x[key] not in seen and not seen_add(x[key])]

The `seen` set is modelled by the list of values added so far; a record on
which `x[key]` raises KeyError aborts the whole call with an error. -/

def uniq_list_go (key : String) : List InputRecord → List String → Except String (List InputRecord)
  | [], _ => .ok []
  | x :: xs, seen =>
    match getVal? x key with
    | none => .error "KeyError"
    | some v =>
      if seenHas seen v then uniq_list_go key xs seen
      else
        match uniq_list_go key xs (v :: seen) with
        | .error e => .error e
        | .ok rest => .ok (x :: rest)

/-- The deduplicator of the source: keeps a record iff its value at `key`
has not been seen yet, scanning the list left to right. -/
def uniq_list (l : List InputRecord) (key : String) : Except String (List InputRecord) :=
  uniq_list_go key l []

/-- Modelled from the spec words for RecordDeduplicator (spec 4.2): return
exactly one record per distinct key value, namely the first occurrence of
each value, in the relative order of those first occurrences: keep the
head and recurse on the tail purged of records sharing the head's key. -/
def dedupeSpec : List InputRecord → String → List InputRecord
  | [], _ => []
  | x :: xs, key => x :: dedupeSpec (xs.filter (fun y => getVal? y key != getVal? x key)) key
termination_by l _ => l.length
decreasing_by
  simp only [List.length_cons]
  exact Nat.lt_succ_of_le (List.length_filter_le _ _)

/-- Records whose key value is not in the seen set yet. -/
def unseen (key : String) (seen : List String) (r : InputRecord) : Bool :=
  match getVal? r key with
  | none => true
  | some v => !seenHas seen v

theorem dedupeSpec_cons (x : InputRecord) (xs : List InputRecord) (key : String) :
    dedupeSpec (x :: xs) key =
      x :: dedupeSpec (xs.filter (fun y => getVal? y key != getVal? x key)) key := by
  rw [dedupeSpec]

theorem uniq_list_go_eq_dedupeSpec (key : String) (l : List InputRecord) (seen : List String)
    (h : ∀ r ∈ l, (getVal? r key).isSome) :
    uniq_list_go key l seen = .ok (dedupeSpec (l.filter (unseen key seen)) key) := by
  induction l generalizing seen with
  | nil => simp [uniq_list_go, dedupeSpec]
  | cons x xs ih =>
    have hx : (getVal? x key).isSome := h x (by simp)
    obtain ⟨v, hv⟩ := Option.isSome_iff_exists.mp hx
    have hxs : ∀ r ∈ xs, (getVal? r key).isSome := fun r hr => h r (by simp [hr])
    by_cases hs : seenHas seen v = true
    · have hdrop : unseen key seen x = false := by simp [unseen, hv, hs]
      rw [uniq_list_go]
      simp only [hv, if_pos hs]
      rw [List.filter_cons, hdrop]
      simp only [Bool.false_eq_true, if_false]
      exact ih seen hxs
    · have hkeep : unseen key seen x = true := by simp [unseen, hv, hs]
      rw [uniq_list_go]
      simp only [hv, if_neg hs]
      rw [ih (v :: seen) hxs]
      have hfilt : xs.filter (unseen key (v :: seen)) =
          (xs.filter (unseen key seen)).filter
            (fun y => getVal? y key != getVal? x key) := by
        rw [List.filter_filter]
        apply List.filter_congr
        intro y hy
        obtain ⟨w, hw⟩ := Option.isSome_iff_exists.mp (hxs y hy)
        by_cases hwv : w = v
        · subst hwv
          simp [unseen, hw, hv, seenHas]
        · have h1 : (v == w) = false := beq_eq_false_iff_ne.mpr (Ne.symm hwv)
          have h2 : ((some w : Option String) == some v) = false :=
            beq_eq_false_iff_ne.mpr (by simp [hwv])
          simp [unseen, hw, hv, seenHas, bne, h1, h2]
      rw [List.filter_cons, hkeep]
      simp only [if_true]
      rw [dedupeSpec_cons, hfilt]

theorem filter_unseen_nil (key : String) (l : List InputRecord) :
    l.filter (unseen key []) = l := by
  apply List.filter_eq_self.mpr
  intro y _
  cases hy : getVal? y key <;> simp [unseen, hy, seenHas]

/-- Claim C7: on input records that all carry the key column, `uniq_list`
returns (without error) exactly one record per distinct key value, namely
the first occurrence of each value, in the relative order those first
occurrences appear in the input (the latter expressed by `dedupeSpec`,
which is the spec's description of the deduplicator). -/
theorem c7_theorem (l : List InputRecord) (key : String)
    (h : ∀ r ∈ l, (getVal? r key).isSome) :
    uniq_list l key = .ok (dedupeSpec l key) := by
  have := uniq_list_go_eq_dedupeSpec key l [] h
  rw [uniq_list, this, filter_unseen_nil]

/-- Witness for C7 at the spec's own example: dedupe of
[(ip,A)], [(ip,B)], [(ip,A)] keeps the first A and B, in order. -/
theorem c7_witness :
    uniq_list ([[("ip", "A")], [("ip", "B")], [("ip", "A")]] : List InputRecord) "ip" =
      .ok (dedupeSpec ([[("ip", "A")], [("ip", "B")], [("ip", "A")]] : List InputRecord) "ip") ∧
    dedupeSpec ([[("ip", "A")], [("ip", "B")], [("ip", "A")]] : List InputRecord) "ip" =
      [[("ip", "A")], [("ip", "B")]] := by
  constructor
  · exact c7_theorem ([[("ip", "A")], [("ip", "B")], [("ip", "A")]] : List InputRecord) "ip"
      (by decide)
  · rw [dedupeSpec_cons]
    have e1 : List.filter (fun y => getVal? y "ip" != getVal? [("ip", "A")] "ip")
        ([[("ip", "B")], [("ip", "A")]] : List InputRecord) = [[("ip", "B")]] := by decide
    rw [e1, dedupeSpec_cons]
    have e2 : List.filter (fun y => getVal? y "ip" != getVal? [("ip", "B")] "ip")
        ([] : List InputRecord) = [] := by decide
    rw [e2]
    have e3 : dedupeSpec ([] : List InputRecord) "ip" = [] := by rw [dedupeSpec]
    rw [e3]

/-- Claim C6 fails on the code: a record without the key column makes
`uniq_list` raise KeyError (modelled as an error result) instead of being
kept as its own occurrence; here neither missing-key record survives and
no result list is produced at all. -/
theorem c6_counterexample :
    uniq_list ([[("addr", "1")], [("addr", "2")]] : List InputRecord) "ip" =
      .error "KeyError" := rfl

theorem uniq_list_go_error (key : String) (l : List InputRecord)
    (h : ∃ r ∈ l, getVal? r key = none) :
    ∀ seen, uniq_list_go key l seen = .error "KeyError" := by
  induction l with
  | nil => simp at h
  | cons x xs ih =>
    intro seen
    rcases h with ⟨r, hr, hkey⟩
    rcases List.mem_cons.mp hr with h1 | h1
    · subst h1
      rw [uniq_list_go]
      simp only [hkey]
    · cases hx : getVal? x key with
      | none =>
        rw [uniq_list_go]
        simp only [hx]
      | some v =>
        have herr := ih ⟨r, h1, hkey⟩
        rw [uniq_list_go]
        simp only [hx]
        by_cases hs : seenHas seen v = true
        · rw [if_pos hs]; exact herr seen
        · rw [if_neg hs, herr (v :: seen)]

/-- Claim C6, amended: as soon as the input contains a record lacking the
key column, `uniq_list` fails with KeyError (the Python comprehension
evaluates `x[key]` on every record); missing-key records are not kept. -/
theorem c6_amended_theorem (l : List InputRecord) (key : String)
    (h : ∃ r ∈ l, getVal? r key = none) :
    uniq_list l key = .error "KeyError" :=
  uniq_list_go_error key l h []

/-- Witness for the amended C6: one keyed record followed by a keyless one
still aborts the whole call. -/
theorem c6_witness :
    uniq_list ([[("ip", "1.2.3.4")], [("x", "2")]] : List InputRecord) "ip" =
      .error "KeyError" :=
  c6_amended_theorem ([[("ip", "1.2.3.4")], [("x", "2")]] : List InputRecord) "ip"
    ⟨[("x", "2")], by decide, by decide⟩

/-! ## ip2loc (ip2map.py lines 187-238)

The resolver queries the lookup service once per address and parses the
response body.  The transport and parse step is abstracted into an oracle
`lookup : String → Option Geo`: `some g` is a body that parses into the
structured document `g` (each field optional, as in the source where each
is guarded by `try ... except KeyError`), `none` is a body on which
`json.loads` raises ValueError, which the source answers with `break`. -/

structure Geo where
  country_code : Option String
  country_code3 : Option String
  country : Option String
  city : Option String
  region : Option String
  region_code : Option String
  latitude : Option String
  longitude : Option String
  postal_code : Option String
  isp : Option String
  asn : Option String
deriving DecidableEq

/-- Field extraction with the `except KeyError: 'N/A'` default. -/
def orNA : Option String → String
  | some s => s
  | none => "N/A"

/-- The record `t` of line 231:
[ip, lat, lng, country_code2, country_code3, country, region_code, region, city, zip, asn, isp]. -/
def mkRecord (ip : String) (g : Geo) : List String :=
  [ip, orNA g.latitude, orNA g.longitude, orNA g.country_code, orNA g.country_code3,
   orNA g.country, orNA g.region_code, orNA g.region, orNA g.city, orNA g.postal_code,
   orNA g.asn, orNA g.isp]

/-- The loop of lines 198-232: resolve addresses in order, appending one
record per address, and break out of the loop on the first body that
fails to parse. -/
def ip2loc (lookup : String → Option Geo) : List String → List (List String)
  | [] => []
  | ip :: rest =>
    match lookup ip with
    | none => []
    | some g => mkRecord ip g :: ip2loc lookup rest

/-- Claim C2: if the response body for the address at position k fails to
parse while all earlier bodies parse, `ip2loc` returns exactly the
records for positions 0..k-1: the resolved prefix is kept in full, and
nothing at or after position k contributes. -/
theorem c2_theorem (lookup : String → Option Geo) (l : List String) (k : Nat)
    (h1 : k < l.length)
    (h2 : lookup (l.getD k "") = none)
    (h3 : ∀ i, i < k → (lookup (l.getD i "")).isSome) :
    (ip2loc lookup l).length = k ∧
    ip2loc lookup l = (l.take k).filterMap (fun ip => (lookup ip).map (mkRecord ip)) := by
  induction l generalizing k with
  | nil => simp at h1
  | cons x xs ih =>
    cases k with
    | zero =>
      have hx : lookup x = none := h2
      simp [ip2loc, hx]
    | succ j =>
      have hx : (lookup x).isSome := h3 0 (Nat.succ_pos j)
      obtain ⟨g, hg⟩ := Option.isSome_iff_exists.mp hx
      have h1j : j < xs.length := Nat.lt_of_succ_lt_succ h1
      have h2j : lookup (xs.getD j "") = none := h2
      have h3j : ∀ i, i < j → (lookup (xs.getD i "")).isSome := by
        intro i hi
        exact h3 (i + 1) (Nat.succ_lt_succ hi)
      obtain ⟨ihlen, iheq⟩ := ih j h1j h2j h3j
      constructor
      · simp [ip2loc, hg, ihlen]
      · simp only [ip2loc, hg, List.take_succ_cons, List.filterMap_cons]
        simp [hg, iheq]

/-- A concrete response document used by the witnesses. -/
def geoEx : Geo :=
  ⟨some "US", some "USA", some "United States", some "A/B", some "Reg", some "Y",
   some "1.5", some "2.5", none, none, some "AS1"⟩

/-- A concrete lookup oracle: address "a" resolves, all others fail to parse. -/
def lookupEx : String → Option Geo := fun ip => if ip = "a" then some geoEx else none

/-- Witness for C2: on ["a", "b", "c"] with "b" failing to parse, exactly
the record for "a" is returned. -/
theorem c2_witness :
    (ip2loc lookupEx ["a", "b", "c"]).length = 1 ∧
    ip2loc lookupEx ["a", "b", "c"] =
      ((["a", "b", "c"].take 1).filterMap (fun ip => (lookupEx ip).map (mkRecord ip))) :=
  c2_theorem lookupEx ["a", "b", "c"] 1 (by decide) (by decide) (by decide)

/-- Claim C9: every record `ip2loc` returns is the 12-field tuple in the
fixed order (address, latitude, longitude, country_code2, country_code3,
country, region_code, region, city, postal_code, asn, isp); the i-th
record's address is the i-th input address, and every field the response
omitted is the sentinel "N/A". -/
theorem c9_theorem (lookup : String → Option Geo) (l : List String) (i : Nat)
    (h : i < (ip2loc lookup l).length) :
    ((ip2loc lookup l).getD i []).length = 12 ∧
    ((ip2loc lookup l).getD i []).getD 0 "" = l.getD i "" ∧
    ∃ g, lookup (l.getD i "") = some g ∧
      (ip2loc lookup l).getD i [] = mkRecord (l.getD i "") g ∧
      (g.latitude = none → ((ip2loc lookup l).getD i []).getD 1 "" = "N/A") ∧
      (g.longitude = none → ((ip2loc lookup l).getD i []).getD 2 "" = "N/A") ∧
      (g.country_code = none → ((ip2loc lookup l).getD i []).getD 3 "" = "N/A") ∧
      (g.country_code3 = none → ((ip2loc lookup l).getD i []).getD 4 "" = "N/A") ∧
      (g.country = none → ((ip2loc lookup l).getD i []).getD 5 "" = "N/A") ∧
      (g.region_code = none → ((ip2loc lookup l).getD i []).getD 6 "" = "N/A") ∧
      (g.region = none → ((ip2loc lookup l).getD i []).getD 7 "" = "N/A") ∧
      (g.city = none → ((ip2loc lookup l).getD i []).getD 8 "" = "N/A") ∧
      (g.postal_code = none → ((ip2loc lookup l).getD i []).getD 9 "" = "N/A") ∧
      (g.asn = none → ((ip2loc lookup l).getD i []).getD 10 "" = "N/A") ∧
      (g.isp = none → ((ip2loc lookup l).getD i []).getD 11 "" = "N/A") := by
  induction l generalizing i with
  | nil => simp [ip2loc] at h
  | cons x xs ih =>
    cases hx : lookup x with
    | none => rw [ip2loc] at h; simp [hx] at h
    | some g =>
      cases i with
      | zero =>
        refine ⟨?_, ?_, g, hx, ?_, ?_, ?_, ?_, ?_, ?_, ?_, ?_, ?_, ?_, ?_, ?_⟩ <;>
          first
          | (intro hn; simp [ip2loc, hx, mkRecord, orNA, hn])
          | simp [ip2loc, hx, mkRecord]
      | succ j =>
        have hj : j < (ip2loc lookup xs).length := by
          rw [ip2loc] at h; simp [hx] at h; omega
        have := ih j hj
        simpa [ip2loc, hx] using this

/-- Witness for C9 at the record resolved for "a". -/
theorem c9_witness :
    ((ip2loc lookupEx ["a"]).getD 0 []).length = 12 ∧
    ((ip2loc lookupEx ["a"]).getD 0 []).getD 0 "" = ["a"].getD 0 "" ∧
    ∃ g, lookupEx (["a"].getD 0 "") = some g ∧
      (ip2loc lookupEx ["a"]).getD 0 [] = mkRecord (["a"].getD 0 "") g ∧
      (g.latitude = none → ((ip2loc lookupEx ["a"]).getD 0 []).getD 1 "" = "N/A") ∧
      (g.longitude = none → ((ip2loc lookupEx ["a"]).getD 0 []).getD 2 "" = "N/A") ∧
      (g.country_code = none → ((ip2loc lookupEx ["a"]).getD 0 []).getD 3 "" = "N/A") ∧
      (g.country_code3 = none → ((ip2loc lookupEx ["a"]).getD 0 []).getD 4 "" = "N/A") ∧
      (g.country = none → ((ip2loc lookupEx ["a"]).getD 0 []).getD 5 "" = "N/A") ∧
      (g.region_code = none → ((ip2loc lookupEx ["a"]).getD 0 []).getD 6 "" = "N/A") ∧
      (g.region = none → ((ip2loc lookupEx ["a"]).getD 0 []).getD 7 "" = "N/A") ∧
      (g.city = none → ((ip2loc lookupEx ["a"]).getD 0 []).getD 8 "" = "N/A") ∧
      (g.postal_code = none → ((ip2loc lookupEx ["a"]).getD 0 []).getD 9 "" = "N/A") ∧
      (g.asn = none → ((ip2loc lookupEx ["a"]).getD 0 []).getD 10 "" = "N/A") ∧
      (g.isp = none → ((ip2loc lookupEx ["a"]).getD 0 []).getD 11 "" = "N/A") :=
  c9_theorem lookupEx ["a"] 0 (by decide)

/-! ## The pivots of main (ip2map.py lines 477-499)

    b = {}
    for item in items: b[item] = b.get(item, 0) + 1
    for key, value in b.iteritems():
        if not key in 'N/A': stats.append([key, value])
    stats = sorted(stats, key=itemgetter(1), reverse=True)

The dict is modelled as an association list in first-insertion order; the
claims proved below (membership and descending sortedness) do not depend
on the dict's iteration order.  `sorted` with reverse=True is a stable
descending sort, modelled by stable insertion. -/

/-- One `b[item] = b.get(item, 0) + 1` step. -/
def bumpCount : List (String × Nat) → String → List (String × Nat)
  | [], item => [(item, 1)]
  | (k, n) :: rest, item =>
    if k == item then (k, n + 1) :: rest else (k, n) :: bumpCount rest item

/-- The fully built counting dict for a list of values. -/
def countFold (items : List String) : List (String × Nat) :=
  items.foldl bumpCount []

/-- `b.get(item, 0)`. -/
def lookupCnt : List (String × Nat) → String → Nat
  | [], _ => 0
  | (k, n) :: rest, item => if k == item then n else lookupCnt rest item

/-- Occurrence count of a value in a list (the intended meaning of the
counting dict). -/
def countVal (v : String) : List String → Nat
  | [] => 0
  | x :: xs => (if x == v then 1 else 0) + countVal v xs

/-- Stable insertion into a descending-by-count list. -/
def insDesc (x : String × Nat) : List (String × Nat) → List (String × Nat)
  | [] => [x]
  | y :: ys => if y.2 < x.2 then x :: y :: ys else y :: insDesc x ys

/-- Stable descending-by-count sort: extensionally Python
`sorted(..., key=itemgetter(1), reverse=True)`. -/
def sortDesc (l : List (String × Nat)) : List (String × Nat) :=
  l.foldl (fun acc x => insDesc x acc) []

/-- The whole pivot: count column `col` of the body rows, drop keys that
are substrings of "N/A", sort descending by count. -/
def pivotStats (col : Nat) (rows : List (List String)) : List (String × Nat) :=
  sortDesc ((countFold (rows.map (fun row => row.getD col ""))).filter
    (fun kv => !(pyIn kv.1 "N/A")))

/-- The country pivot of lines 477-487 (column 3 of the merged record). -/
def countryStatsOf (rows : List (List String)) : List (String × Nat) := pivotStats 3 rows

/-- The latitude pivot of lines 490-499 (column 1 of the merged record). -/
def latsStatsOf (rows : List (List String)) : List (String × Nat) := pivotStats 1 rows

theorem lookupCnt_bumpCount (b : List (String × Nat)) (item v : String) :
    lookupCnt (bumpCount b item) v = lookupCnt b v + (if v = item then 1 else 0) := by
  induction b with
  | nil =>
    by_cases h : v = item
    · subst h; simp [bumpCount, lookupCnt]
    · simp [bumpCount, lookupCnt, beq_iff_eq, h, Ne.symm h]
  | cons kn rest ih =>
    obtain ⟨k, n⟩ := kn
    by_cases hk : k = item
    · subst hk
      by_cases hv : k = v
      · subst hv; simp [bumpCount, lookupCnt]
      · simp [bumpCount, lookupCnt, beq_iff_eq, hv, Ne.symm hv]
    · by_cases hv : k = v
      · rw [← hv]
        simp [bumpCount, lookupCnt, beq_iff_eq, hk]
      · simp [bumpCount, lookupCnt, beq_iff_eq, hk, hv, ih]

theorem lookupCnt_countFold_go (items : List String) (b : List (String × Nat)) (v : String) :
    lookupCnt (items.foldl bumpCount b) v = lookupCnt b v + countVal v items := by
  induction items generalizing b with
  | nil => simp [countVal]
  | cons i is ih =>
    rw [List.foldl_cons, ih, lookupCnt_bumpCount, countVal]
    by_cases h : i = v
    · subst h; simp; omega
    · simp [h, Ne.symm h, beq_iff_eq]

theorem lookupCnt_countFold (items : List String) (v : String) :
    lookupCnt (countFold items) v = countVal v items := by
  have := lookupCnt_countFold_go items [] v
  simpa [countFold, lookupCnt] using this

theorem mem_keys_bumpCount (b : List (String × Nat)) (item v : String) :
    v ∈ (bumpCount b item).map Prod.fst ↔ v ∈ b.map Prod.fst ∨ v = item := by
  induction b with
  | nil => simp [bumpCount]
  | cons kn rest ih =>
    obtain ⟨k, n⟩ := kn
    by_cases hk : k = item
    · subst hk; simp [bumpCount]; tauto
    · simp [bumpCount, beq_iff_eq, hk, ih]; tauto

theorem mem_keys_countFold_go (items : List String) (b : List (String × Nat)) (v : String) :
    v ∈ (items.foldl bumpCount b).map Prod.fst ↔ v ∈ b.map Prod.fst ∨ v ∈ items := by
  induction items generalizing b with
  | nil => simp
  | cons i is ih =>
    rw [List.foldl_cons, ih, mem_keys_bumpCount]
    simp
    tauto

theorem mem_keys_countFold (items : List String) (v : String) :
    v ∈ (countFold items).map Prod.fst ↔ v ∈ items := by
  have := mem_keys_countFold_go items [] v
  simpa [countFold] using this

theorem keys_nodup_bumpCount (b : List (String × Nat)) (item : String)
    (h : (b.map Prod.fst).Nodup) : ((bumpCount b item).map Prod.fst).Nodup := by
  induction b with
  | nil => simp [bumpCount]
  | cons kn rest ih =>
    obtain ⟨k, n⟩ := kn
    rw [List.map_cons, List.nodup_cons] at h
    by_cases hk : k = item
    · subst hk
      rw [bumpCount, if_pos (by simp), List.map_cons, List.nodup_cons]
      exact h
    · rw [bumpCount, if_neg (by simp [hk]), List.map_cons, List.nodup_cons]
      refine ⟨?_, ih h.2⟩
      intro hmem
      rcases (mem_keys_bumpCount rest item k).mp hmem with h1 | h1
      · exact h.1 h1
      · exact hk h1

theorem keys_nodup_countFold (items : List String) :
    ((countFold items).map Prod.fst).Nodup := by
  rw [countFold]
  have : ∀ b : List (String × Nat), (b.map Prod.fst).Nodup →
      ((items.foldl bumpCount b).map Prod.fst).Nodup := by
    induction items with
    | nil => intro b hb; simpa using hb
    | cons i is ih =>
      intro b hb
      rw [List.foldl_cons]
      exact ih _ (keys_nodup_bumpCount b i hb)
  exact this [] (by simp)

theorem mem_of_nodup_lookupCnt (v : String) (n : Nat) :
    ∀ b : List (String × Nat), (b.map Prod.fst).Nodup → (v, n) ∈ b → n = lookupCnt b v := by
  intro b
  induction b with
  | nil => intro _ h; simp at h
  | cons kn rest ih =>
    intro hnd h
    obtain ⟨k, m⟩ := kn
    rw [List.map_cons, List.nodup_cons] at hnd
    rcases List.mem_cons.mp h with h1 | h1
    · rw [Prod.mk.injEq] at h1
      obtain ⟨hk, hm⟩ := h1
      subst hk; subst hm
      simp [lookupCnt]
    · have hkv : k ≠ v := by
        intro he
        have hv : v ∈ rest.map Prod.fst := List.mem_map_of_mem Prod.fst h1
        rw [← he] at hv
        exact hnd.1 hv
      simp [lookupCnt, beq_iff_eq, hkv]
      exact ih hnd.2 h1

theorem mem_countFold_iff (items : List String) (v : String) (n : Nat) :
    (v, n) ∈ countFold items ↔ v ∈ items ∧ n = countVal v items := by
  constructor
  · intro h
    have hk : v ∈ (countFold items).map Prod.fst := List.mem_map_of_mem Prod.fst h
    have hv : v ∈ items := (mem_keys_countFold items v).mp hk
    have hn := mem_of_nodup_lookupCnt v n (countFold items) (keys_nodup_countFold items) h
    rw [lookupCnt_countFold] at hn
    exact ⟨hv, hn⟩
  · rintro ⟨hv, hn⟩
    have hk : v ∈ (countFold items).map Prod.fst := (mem_keys_countFold items v).mpr hv
    rcases List.mem_map.mp hk with ⟨⟨v2, n2⟩, hmem, hfst⟩
    have hv2 : v2 = v := hfst
    rw [hv2] at hmem
    have hn2 := mem_of_nodup_lookupCnt v n2 (countFold items) (keys_nodup_countFold items) hmem
    rw [lookupCnt_countFold] at hn2
    rw [hn, ← hn2]
    exact hmem

theorem insDesc_perm (x : String × Nat) (l : List (String × Nat)) :
    List.Perm (insDesc x l) (x :: l) := by
  induction l with
  | nil => simp [insDesc]
  | cons y ys ih =>
    rw [insDesc]
    by_cases h : y.2 < x.2
    · simp [h]
    · simp only [h, if_false]
      exact (ih.cons y).trans (List.Perm.swap x y ys)

theorem sortDesc_perm (l : List (String × Nat)) : List.Perm (sortDesc l) l := by
  have : ∀ acc : List (String × Nat),
      List.Perm (l.foldl (fun acc x => insDesc x acc) acc) (acc ++ l) := by
    induction l with
    | nil => intro acc; simp
    | cons i is ih =>
      intro acc
      rw [List.foldl_cons]
      refine (ih (insDesc i acc)).trans ?_
      refine (List.Perm.append_right is ((insDesc_perm i acc))).trans ?_
      exact (List.perm_middle).symm
  simpa [sortDesc] using this []

theorem mem_insDesc (x a : String × Nat) (l : List (String × Nat)) :
    a ∈ insDesc x l ↔ a = x ∨ a ∈ l := by
  rw [(insDesc_perm x l).mem_iff]
  simp

theorem insDesc_sorted (x : String × Nat) (l : List (String × Nat))
    (h : List.Pairwise (fun a b => b.2 ≤ a.2) l) :
    List.Pairwise (fun a b => b.2 ≤ a.2) (insDesc x l) := by
  induction l with
  | nil => simp [insDesc]
  | cons y ys ih =>
    rw [List.pairwise_cons] at h
    rw [insDesc]
    by_cases hcmp : y.2 < x.2
    · simp only [hcmp, if_true]
      rw [List.pairwise_cons]
      constructor
      · intro b hb
        rcases List.mem_cons.mp hb with h1 | h1
        · subst h1; omega
        · have := h.1 b h1; omega
      · rw [List.pairwise_cons]
        exact h
    · simp only [hcmp, if_false]
      rw [List.pairwise_cons]
      constructor
      · intro b hb
        rcases (mem_insDesc x b ys).mp hb with h1 | h1
        · subst h1; omega
        · exact h.1 b h1
      · exact ih h.2

theorem sortDesc_sorted (l : List (String × Nat)) :
    List.Pairwise (fun a b => b.2 ≤ a.2) (sortDesc l) := by
  have : ∀ acc : List (String × Nat), List.Pairwise (fun a b => b.2 ≤ a.2) acc →
      List.Pairwise (fun a b => b.2 ≤ a.2) (l.foldl (fun acc x => insDesc x acc) acc) := by
    induction l with
    | nil => intro acc h; simpa using h
    | cons i is ih =>
      intro acc h
      rw [List.foldl_cons]
      exact ih _ (insDesc_sorted i acc h)
  exact this [] (by simp)

theorem pivotStats_mem (col : Nat) (rows : List (List String)) (v : String) (n : Nat) :
    (v, n) ∈ pivotStats col rows ↔
      (pyIn v "N/A" = false ∧ v ∈ rows.map (fun row => row.getD col "") ∧
        n = countVal v (rows.map (fun row => row.getD col ""))) := by
  rw [pivotStats, (sortDesc_perm _).mem_iff, List.mem_filter, mem_countFold_iff]
  constructor
  · rintro ⟨⟨h1, h2⟩, h3⟩
    simp at h3
    exact ⟨h3, h1, h2⟩
  · rintro ⟨h3, h1, h2⟩
    refine ⟨⟨h1, h2⟩, ?_⟩
    simp [h3]

theorem pivotStats_sorted (col : Nat) (rows : List (List String)) :
    List.Pairwise (fun a b => b.2 ≤ a.2) (pivotStats col rows) :=
  sortDesc_sorted _

/-- Claim C3 fails on the code as stated: the sentinel test of line 485 is
Python substring containment (`not key in 'N/A'`), so the country code
"N", although different from "N/A", is excluded from the statistics. -/
theorem c3_counterexample :
    countryStatsOf [["1.2.3.4", "0", "0", "N", "NNN", "Nowhere", "RC", "R", "C", "Z", "A1", "I"]]
      = [] ∧ ("N" : String) ≠ "N/A" := by decide

/-- Claim C3, amended: the country statistics contain a (code, count) pair
for exactly those distinct column-3 values that are not substrings of the
sentinel "N/A" (rather than merely different from it), each with the
number of rows carrying the value, and the list is sorted in descending
order of count. -/
theorem c3_amended_theorem (rows : List (List String)) :
    (∀ v n, (v, n) ∈ countryStatsOf rows ↔
      (pyIn v "N/A" = false ∧ v ∈ rows.map (fun row => row.getD 3 "") ∧
        n = countVal v (rows.map (fun row => row.getD 3 "")))) ∧
    List.Pairwise (fun a b => b.2 ≤ a.2) (countryStatsOf rows) :=
  ⟨fun v n => pivotStats_mem 3 rows v n, pivotStats_sorted 3 rows⟩

/-- Witness for the amended C3 on rows with codes US, US, DE, N/A. -/
theorem c3_witness :
    (("US", 2) ∈ countryStatsOf
        [["a", "1", "2", "US"], ["b", "1", "2", "US"], ["c", "1", "2", "DE"],
         ["d", "1", "2", "N/A"]] ↔
      (pyIn "US" "N/A" = false ∧
        "US" ∈ ([["a", "1", "2", "US"], ["b", "1", "2", "US"], ["c", "1", "2", "DE"],
          ["d", "1", "2", "N/A"]].map (fun row => row.getD 3 "")) ∧
        2 = countVal "US" ([["a", "1", "2", "US"], ["b", "1", "2", "US"],
          ["c", "1", "2", "DE"], ["d", "1", "2", "N/A"]].map (fun row => row.getD 3 "")))) ∧
    List.Pairwise (fun a b => b.2 ≤ a.2) (countryStatsOf
      [["a", "1", "2", "US"], ["b", "1", "2", "US"], ["c", "1", "2", "DE"],
       ["d", "1", "2", "N/A"]]) :=
  ⟨( c3_amended_theorem [["a", "1", "2", "US"], ["b", "1", "2", "US"], ["c", "1", "2", "DE"],
      ["d", "1", "2", "N/A"]]).1 "US" 2,
   ( c3_amended_theorem [["a", "1", "2", "US"], ["b", "1", "2", "US"], ["c", "1", "2", "DE"],
      ["d", "1", "2", "N/A"]]).2⟩

/-! ## The latlong table and the bubbles (ip2map.py lines 501-514) -/

/-- The composite key "%s-%s" % (i[3], str(i[6]).replace("/", "")) used
both at line 504 and at line 512: the country-code field joined to the
slash-stripped field at index 6 (which is the region_code position of the
record built at line 231). -/
def compositeKey (r : List String) : String :=
  r.getD 3 "" ++ "-" ++ stripSlash (r.getD 6 "")

/-- The latlong assignments of lines 501-504, one per body row whose
country-code field is not a substring of "N/A", in row order; each entry
carries (key, latitude, longitude). -/
def latlonData (rows : List (List String)) : List (String × String × String) :=
  (rows.filter (fun i => !(pyIn (i.getD 3 "") "N/A"))).map
    (fun i => (compositeKey i, i.getD 1 "", i.getD 2 ""))

/-- Reading the generated JavaScript latlong object: the assignments
execute in order, so the last assignment to a key wins. -/
def tableGet (entries : List (String × String × String)) (key : String) :
    Option (String × String) :=
  ((entries.filter (fun e => e.1 == key)).map (fun e => e.2)).getLast?

/-- Python list indexing with an Int index (negative indices count from
the end; out of range raises, surfaced as `none`). -/
def pyIndex (l : List String) (i : Int) : Option String :=
  if 0 ≤ i then l.get? i.toNat
  else if (-i).toNat ≤ l.length then l.get? (l.length - (-i).toNat) else none

/-- The bubble entries of lines 509-514: one per latitude-count pair, the
code and the label both taken from the first row of final_processed
(header row included, line 511 filters the whole list) whose latitude
field equals the pair's key. -/
def mapData (header : List String) (rows : List (List String)) (labelIdx : Int) :
    List (String × String × Nat) :=
  (latsStatsOf rows).map (fun st =>
    (compositeKey (((header :: rows).filter (fun x => x.getD 1 "" == st.1)).headD []),
     (pyIndex (((header :: rows).filter (fun x => x.getD 1 "" == st.1)).headD []) labelIdx).getD "",
     st.2))

theorem headD_filter_mem (p : List String → Bool) (l : List (List String)) (d : List String)
    (h : ∃ x ∈ l, p x = true) :
    (l.filter p).headD d ∈ l ∧ p ((l.filter p).headD d) = true := by
  cases hf : l.filter p with
  | nil =>
    rcases h with ⟨x, hx, hp⟩
    rw [List.filter_eq_nil_iff] at hf
    exact absurd hp (hf x hx)
  | cons y ys =>
    have hy : y ∈ l.filter p := by
      rw [hf]
      exact List.mem_cons_self y ys
    rw [List.mem_filter] at hy
    rw [List.headD_cons]
    exact ⟨hy.1, hy.2⟩

theorem latlonData_append_pass (rows : List (List String)) (r : List String)
    (hr : pyIn (r.getD 3 "") "N/A" = false) :
    latlonData (rows ++ [r]) =
      latlonData rows ++ [(compositeKey r, r.getD 1 "", r.getD 2 "")] := by
  rw [latlonData, latlonData, List.filter_append, List.map_append]
  congr 1
  rw [List.filter_cons]
  rw [hr]
  simp

theorem tableGet_append_self (entries : List (String × String × String)) (key : String)
    (v : String × String) :
    tableGet (entries ++ [(key, v)]) key = some v := by
  rw [tableGet, List.filter_append, List.filter_cons]
  simp only [beq_self_eq_true, if_true, List.filter_nil, List.map_append, List.map_cons,
    List.map_nil]
  rw [List.getLast?_concat]

/-- Claim C4 fails on the code as stated: the composite key is built from
the field at index 6 of the record, which is the region_code position,
not the city position (index 8).  Here the city is "X" and the
region_code is "Y": the key produced is "US-Y", not "US-X". -/
theorem c4_counterexample :
    latlonData [["1.2.3.4", "1.5", "2.5", "US", "USA", "United States", "Y", "Reg", "X",
        "Z", "AS1", "ISP"]] = [("US-Y", "1.5", "2.5")] ∧
    (["1.2.3.4", "1.5", "2.5", "US", "USA", "United States", "Y", "Reg", "X",
        "Z", "AS1", "ISP"].getD 8 "") = "X" ∧
    ("US-Y" : String) ≠ "US" ++ "-" ++ stripSlash "X" := by decide

/-- Claim C4, amended: the key of every coordinate-table entry (and the
composite id of every bubble entry) is "{country_code}-{field 6 with
slashes removed}" where field 6 is the region-code position of the merged
record, not the city; entries exist exactly for rows whose country code
is not a substring of "N/A", and on duplicate keys the later record's
(latitude, longitude) pair wins. -/
theorem c4_amended_theorem :
    (∀ rows : List (List String), ∀ e ∈ latlonData rows,
      ∃ r ∈ rows, pyIn (r.getD 3 "") "N/A" = false ∧
        e = (compositeKey r, r.getD 1 "", r.getD 2 "")) ∧
    (∀ (rows : List (List String)) (r : List String),
      pyIn (r.getD 3 "") "N/A" = false →
      tableGet (latlonData (rows ++ [r])) (compositeKey r) =
        some (r.getD 1 "", r.getD 2 "")) ∧
    (∀ (header : List String) (rows : List (List String)) (li : Int),
      ∀ b ∈ mapData header rows li, ∃ x ∈ header :: rows, b.1 = compositeKey x) := by
  refine ⟨?_, ?_, ?_⟩
  · intro rows e he
    rw [latlonData] at he
    rcases List.mem_map.mp he with ⟨r, hr, hre⟩
    rw [List.mem_filter] at hr
    refine ⟨r, hr.1, ?_, hre.symm⟩
    have h2 : (!pyIn (r.getD 3 "") "N/A") = true := hr.2
    cases hb : pyIn (r.getD 3 "") "N/A"
    · rfl
    · rw [hb] at h2
      exact absurd h2 (by decide)
  · intro rows r hr
    rw [latlonData_append_pass rows r hr, tableGet_append_self]
  · intro header rows li b hb
    rw [mapData] at hb
    rcases List.mem_map.mp hb with ⟨st, hst, hbe⟩
    obtain ⟨v, n⟩ := st
    have hmem := (pivotStats_mem 1 rows v n).mp hst
    rcases List.mem_map.mp hmem.2.1 with ⟨row, hrow, hrv⟩
    have hex : ∃ x ∈ header :: rows, (fun x => x.getD 1 "" == v) x = true := by
      refine ⟨row, List.mem_cons_of_mem header hrow, ?_⟩
      simp only [beq_iff_eq]
      exact hrv
    have hhd := headD_filter_mem (fun x => x.getD 1 "" == v) (header :: rows) [] hex
    refine ⟨((header :: rows).filter (fun x => x.getD 1 "" == v)).headD [], hhd.1, ?_⟩
    rw [← hbe]

/-- The fixed 12-name header of line 343. -/
def csvHeader : List String :=
  ["ipaddress", "latitude", "longitude", "country_code2", "country_code3", "country",
   "region_code", "region", "city", "postal_code", "asn", "isp"]

/-- A merged record whose region_code field ("N/Y") contains a slash. -/
def recA : List String :=
  ["1.2.3.4", "1.5", "2.5", "US", "USA", "United States", "N/Y", "Reg", "City", "Z",
   "AS1", "ISP"]

/-- A second record with the same composite key "US-NY" as `recA`. -/
def recB : List String :=
  ["5.6.7.8", "3.5", "4.5", "US", "USA", "United States", "NY", "Reg", "City2", "Z",
   "AS2", "ISP"]

/-- Witness for the amended C4: the entry shape, the last-write-wins read
(recB overwrites recA under their shared key "US-NY"), and the bubble id
shape, each at concrete inputs. -/
theorem c4_witness :
    (∃ r ∈ [recA], pyIn (r.getD 3 "") "N/A" = false ∧
      (("US-NY", "1.5", "2.5") : String × String × String) =
        (compositeKey r, r.getD 1 "", r.getD 2 "")) ∧
    tableGet (latlonData ([recA] ++ [recB])) (compositeKey recB) =
      some (recB.getD 1 "", recB.getD 2 "") ∧
    (∃ x ∈ csvHeader :: [recA],
      (("US-NY", "1.2.3.4", 1) : String × String × Nat).1 = compositeKey x) :=
  ⟨c4_amended_theorem.1 [recA] ("US-NY", "1.5", "2.5") (by decide),
   c4_amended_theorem.2.1 [recA] recB (by decide),
   c4_amended_theorem.2.2 csvHeader [recA] 0 ("US-NY", "1.2.3.4", 1) (by decide)⟩

/-! ## The merge of main (ip2map.py lines 435-449)

    final_processed.append(csvHeader)
    if cols > 1:
        for ip in processed:
            found = filter(lambda x: x[ip_col_key] == ip[0], data)
            tmp=[]
            for dicts in found:
                for k,v in dicts.iteritems():
                    if k not in ip_col_key:
                        tmp.append(v)
                        if k not in new_csv_header: new_csv_header.append(k)
                final_processed.append(ip + tmp)
        final_processed[0] += new_csv_header
    else:
        final_processed += processed

The dict iteration order is modelled as the column order of the record.
Note that `final_processed.append(ip + tmp)` sits inside the `for dicts
in found` loop, and that `data` here is the deduplicated list produced at
line 390. -/

/-- The inner `for k,v in dicts.iteritems()` loop of lines 441-445 on one
matched row, threading (tmp, new_csv_header). -/
def mergeOne (ipKey : String) : InputRecord → List String → List String → List String × List String
  | [], tmp, hdr => (tmp, hdr)
  | (k, v) :: kvs, tmp, hdr =>
    if !(pyIn k ipKey) then
      mergeOne ipKey kvs (tmp ++ [v]) (if hdr.contains k then hdr else hdr ++ [k])
    else
      mergeOne ipKey kvs tmp hdr

/-- The `for dicts in found` loop of lines 440-446 for one location
record: after each matched row, `ip + tmp` is appended to the output. -/
def innerLoop (ipKey : String) (lr : List String) :
    List InputRecord → List String → List String → List (List String) × List String
  | [], _, hdr => ([], hdr)
  | d :: ds, tmp, hdr =>
    let th := mergeOne ipKey d tmp hdr
    let rest := innerLoop ipKey lr ds th.1 th.2
    ((lr ++ th.1) :: rest.1, rest.2)

/-- The outer `for ip in processed` loop of lines 437-446;
new_csv_header threads across location records. -/
def mergeLoop (ipKey : String) (data : List InputRecord) :
    List (List String) → List String → List (List String) × List String
  | [], hdr => ([], hdr)
  | lr :: lrs, hdr =>
    let found := data.filter (fun x => getVal? x ipKey == some (lr.getD 0 ""))
    let one := innerLoop ipKey lr found [] hdr
    let rest := mergeLoop ipKey data lrs one.2
    (one.1 ++ rest.1, rest.2)

/-- The whole cols > 1 merge: the body rows and the new_csv_header that
line 447 appends to the fixed header. -/
def mergeBody (processed : List (List String)) (data : List InputRecord) (ipKey : String) :
    List (List String) × List String :=
  mergeLoop ipKey data processed []

/-- The extension one matched row contributes: its values at columns whose
name is not a substring of the ip column name, in column order. -/
def tmpValues (ipKey : String) (d : InputRecord) : List String :=
  (d.filter (fun kv => !(pyIn kv.1 ipKey))).map Prod.snd

theorem mergeOne_fst (ipKey : String) (d : InputRecord) :
    ∀ tmp hdr, (mergeOne ipKey d tmp hdr).1 = tmp ++ tmpValues ipKey d := by
  induction d with
  | nil => intro tmp hdr; simp [mergeOne, tmpValues]
  | cons kv kvs ih =>
    intro tmp hdr
    obtain ⟨k, v⟩ := kv
    rw [mergeOne]
    by_cases hk : pyIn k ipKey = true
    · rw [if_neg (by simp [hk])]
      rw [ih]
      simp [tmpValues, hk]
    · rw [if_pos (by simp [Bool.not_eq_true] at hk; simp [hk])]
      rw [ih]
      simp [tmpValues, List.filter_cons, hk]

theorem dedupeSpec_nil (key : String) : dedupeSpec [] key = [] := by
  rw [dedupeSpec]

theorem mem_dedupeSpec (key : String) :
    ∀ (n : Nat) (l : List InputRecord), l.length ≤ n →
      ∀ r ∈ dedupeSpec l key, r ∈ l := by
  intro n
  induction n with
  | zero =>
    intro l hl r hr
    rw [List.length_eq_zero.mp (Nat.le_zero.mp hl)] at hr ⊢
    rw [dedupeSpec_nil] at hr
    exact hr
  | succ m ih =>
    intro l hl r hr
    cases l with
    | nil => rw [dedupeSpec_nil] at hr; exact hr
    | cons x xs =>
      rw [dedupeSpec_cons] at hr
      rcases List.mem_cons.mp hr with h1 | h1
      · exact h1 ▸ List.mem_cons_self x xs
      · have hlen : (xs.filter (fun y => getVal? y key != getVal? x key)).length ≤ m :=
          Nat.le_trans (List.length_filter_le _ _) (Nat.le_of_succ_le_succ hl)
        have := ih _ hlen r h1
        exact List.mem_cons_of_mem x (List.mem_of_mem_filter this)

theorem dedupeSpec_filter_keyEq (key : String) :
    ∀ (n : Nat) (l : List InputRecord), l.length ≤ n → ∀ v : String,
      (dedupeSpec l key).filter (fun r => getVal? r key == some v) =
        (l.filter (fun r => getVal? r key == some v)).take 1 := by
  intro n
  induction n with
  | zero =>
    intro l hl v
    rw [List.length_eq_zero.mp (Nat.le_zero.mp hl), dedupeSpec_nil]
    simp
  | succ m ih =>
    intro l hl v
    cases l with
    | nil => rw [dedupeSpec_nil]; simp
    | cons x xs =>
      rw [dedupeSpec_cons, List.filter_cons, List.filter_cons]
      by_cases hx : (getVal? x key == some v) = true
      · rw [hx]
        simp only [if_true]
        have hxv : getVal? x key = some v := by simpa using hx
        have hnil : (dedupeSpec (xs.filter (fun y => getVal? y key != getVal? x key)) key).filter
            (fun r => getVal? r key == some v) = [] := by
          rw [List.filter_eq_nil_iff]
          intro r hr
          have hrin := mem_dedupeSpec key (xs.filter _).length _ le_rfl r hr
          have := List.of_mem_filter hrin
          intro hc
          have hrv : getVal? r key = some v := by simpa using hc
          rw [hxv, hrv] at this
          simp at this
        rw [hnil]
        simp
      · rw [Bool.not_eq_true] at hx
        rw [hx]
        simp only [Bool.false_eq_true, if_false]
        have hlen : (xs.filter (fun y => getVal? y key != getVal? x key)).length ≤ m :=
          Nat.le_trans (List.length_filter_le _ _) (Nat.le_of_succ_le_succ hl)
        rw [ih _ hlen v]
        congr 1
        rw [List.filter_filter]
        apply List.filter_congr
        intro y _
        by_cases hy : (getVal? y key == some v) = true
        · have hyv : getVal? y key = some v := by simpa using hy
          have hne : getVal? y key ≠ getVal? x key := by
            rw [hyv]
            intro hc
            rw [← hc] at hx
            simp at hx
          simp [hy, hyv, bne, hne]
          intro hc
          have hxv : getVal? x key ≠ some v := by simpa using hx
          exact hxv hc.symm
        · rw [Bool.not_eq_true] at hy
          simp [hy]

theorem take_one_headD (l : List InputRecord) :
    l.take 1 = if l = [] then [] else [l.headD []] := by
  cases l <;> simp

theorem innerLoop_single (ipKey : String) (lr : List String) (d : InputRecord)
    (hdr : List String) :
    (innerLoop ipKey lr [d] [] hdr).1 = [lr ++ tmpValues ipKey d] := by
  simp [innerLoop, mergeOne_fst]

theorem mergeLoop_fst (ipKey : String) (data : List InputRecord) :
    ∀ processed : List (List String),
      (∀ lr ∈ processed, ∃ row,
        data.filter (fun x => getVal? x ipKey == some (lr.getD 0 "")) = [row]) →
      ∀ hdr, (mergeLoop ipKey data processed hdr).1 =
        processed.map (fun lr => lr ++ tmpValues ipKey
          ((data.filter (fun x => getVal? x ipKey == some (lr.getD 0 ""))).headD [])) := by
  intro processed
  induction processed with
  | nil => intro _ hdr; simp [mergeLoop]
  | cons lr lrs ih =>
    intro hfound hdr
    obtain ⟨row, hrow⟩ := hfound lr (List.mem_cons_self _ _)
    have htail := fun lr2 h2 => hfound lr2 (List.mem_cons_of_mem _ h2)
    rw [mergeLoop]
    simp only [hrow, List.map_cons]
    rw [innerLoop_single, ih htail]
    simp [hrow]

/-- Claim C1 fails on the code as stated: in main, merge runs on the
deduplicated rows (line 390), so an address that appears in two original
rows contributes only the first row's extra value "x" to its single
merged record, not the concatenation ["x", "y"]. -/
theorem c1_counterexample :
    uniq_list ([[("ip", "9.9.9.9"), ("c", "x")], [("ip", "9.9.9.9"), ("c", "y")]] :
        List InputRecord) "ip" =
      .ok ([[("ip", "9.9.9.9"), ("c", "x")]] : List InputRecord) ∧
    (mergeBody
        [["9.9.9.9", "1.1", "2.2", "DE", "DEU", "Germany", "BE", "Berlin", "Berlin",
          "10115", "AS3", "ISPX"]]
        ([[("ip", "9.9.9.9"), ("c", "x")]] : List InputRecord) "ip").1 =
      [["9.9.9.9", "1.1", "2.2", "DE", "DEU", "Germany", "BE", "Berlin", "Berlin",
        "10115", "AS3", "ISPX", "x"]] ∧
    (["9.9.9.9", "1.1", "2.2", "DE", "DEU", "Germany", "BE", "Berlin", "Berlin",
        "10115", "AS3", "ISPX", "x"] : List String) ≠
      ["9.9.9.9", "1.1", "2.2", "DE", "DEU", "Germany", "BE", "Berlin", "Berlin",
        "10115", "AS3", "ISPX", "x", "y"] := by
  refine ⟨rfl, by decide, by decide⟩

/-- Claim C1, amended: after the pipeline's dedupe, the merge emits
exactly one combined record per location record (each of whose addresses
occurs in the original batch), and when an address appears in several
original rows the record's extension holds the extra values of only the
first such row, in its column order — not the concatenation of all
matching rows' extras. -/
theorem c1_amended_theorem (processed : List (List String)) (data : List InputRecord)
    (ipKey : String) (data2 : List InputRecord)
    (hkeys : ∀ r ∈ data, (getVal? r ipKey).isSome)
    (hok : uniq_list data ipKey = .ok data2)
    (hex : ∀ lr ∈ processed, ∃ row ∈ data, getVal? row ipKey = some (lr.getD 0 "")) :
    (mergeBody processed data2 ipKey).1.length = processed.length ∧
    (mergeBody processed data2 ipKey).1 =
      processed.map (fun lr => lr ++ tmpValues ipKey
        ((data.filter (fun x => getVal? x ipKey == some (lr.getD 0 ""))).headD [])) := by
  have hded : data2 = dedupeSpec data ipKey := by
    have h1 := uniq_list_go_eq_dedupeSpec ipKey data [] hkeys
    rw [filter_unseen_nil] at h1
    rw [uniq_list] at hok
    rw [h1] at hok
    exact (Except.ok.inj hok).symm
  have hfilters : ∀ lr ∈ processed,
      data2.filter (fun x => getVal? x ipKey == some (lr.getD 0 "")) =
        [(data.filter (fun x => getVal? x ipKey == some (lr.getD 0 ""))).headD []] := by
    intro lr hlr
    obtain ⟨row, hrowmem, hrowkey⟩ := hex lr hlr
    have hne : data.filter (fun x => getVal? x ipKey == some (lr.getD 0 "")) ≠ [] := by
      intro hc
      rw [List.filter_eq_nil_iff] at hc
      exact hc row hrowmem (by simp [hrowkey])
    rw [hded, dedupeSpec_filter_keyEq ipKey data.length data le_rfl, take_one_headD,
      if_neg hne]
  have hfound : ∀ lr ∈ processed, ∃ row2,
      data2.filter (fun x => getVal? x ipKey == some (lr.getD 0 "")) = [row2] :=
    fun lr hlr => ⟨_, hfilters lr hlr⟩
  have hmain := mergeLoop_fst ipKey data2 processed hfound []
  constructor
  · rw [mergeBody, hmain, List.length_map]
  · rw [mergeBody, hmain]
    apply List.map_congr_left
    intro lr hlr
    rw [hfilters lr hlr]
    simp

/-- Witness for the amended C1 at the counterexample's batch. -/
theorem c1_witness :
    (mergeBody
        [["9.9.9.9", "1.1", "2.2", "DE", "DEU", "Germany", "BE", "Berlin", "Berlin",
          "10115", "AS3", "ISPX"]]
        ([[("ip", "9.9.9.9"), ("c", "x")]] : List InputRecord) "ip").1.length =
      [["9.9.9.9", "1.1", "2.2", "DE", "DEU", "Germany", "BE", "Berlin", "Berlin",
        "10115", "AS3", "ISPX"]].length ∧
    (mergeBody
        [["9.9.9.9", "1.1", "2.2", "DE", "DEU", "Germany", "BE", "Berlin", "Berlin",
          "10115", "AS3", "ISPX"]]
        ([[("ip", "9.9.9.9"), ("c", "x")]] : List InputRecord) "ip").1 =
      [["9.9.9.9", "1.1", "2.2", "DE", "DEU", "Germany", "BE", "Berlin", "Berlin",
        "10115", "AS3", "ISPX"]].map (fun lr => lr ++ tmpValues "ip"
        ((([[("ip", "9.9.9.9"), ("c", "x")], [("ip", "9.9.9.9"), ("c", "y")]] :
            List InputRecord).filter
          (fun x => getVal? x "ip" == some (lr.getD 0 ""))).headD [])) :=
  c1_amended_theorem
    [["9.9.9.9", "1.1", "2.2", "DE", "DEU", "Germany", "BE", "Berlin", "Berlin",
      "10115", "AS3", "ISPX"]]
    ([[("ip", "9.9.9.9"), ("c", "x")], [("ip", "9.9.9.9"), ("c", "y")]] : List InputRecord)
    "ip"
    ([[("ip", "9.9.9.9"), ("c", "x")]] : List InputRecord)
    (by decide) (by rfl) (by decide)

/-! ## The label column (ip2map.py lines 459-470)

    label_col = int(re.findall(r'\d+', label)[0])
    if label_col > len(csvHeader):
        ... label_col = 0; label = "//label:dataItem.name"   (labels disabled)
    else:
        label = "label:dataItem.name"; label_col = label_col - 1

Note that `csvHeader` is the same list object appended to final_processed
at line 435, and line 447 extends it in place with new_csv_header, so at
line 464 `len(csvHeader)` is the merged header width: the fixed 12 names
plus the extra columns of this run. -/

/-- Lines 463-470 for a requested numeric index `j` against the header
width: returns (labels enabled?, the resulting 0-based label_col). -/
def labelSetup (j : Nat) (headerLen : Nat) : Bool × Int :=
  if j > headerLen then (false, 0) else (true, (j : Int) - 1)

/-- The merged header (line 435 plus the in-place extension of
line 447): the fixed 12 names followed by this run's extra columns. -/
def mergedHeader (processed : List (List String)) (data : List InputRecord)
    (ipKey : String) : List String :=
  csvHeader ++ (mergeBody processed data ipKey).2

theorem get?_some_of_lt : ∀ (r : List String) (n : Nat), n < r.length →
    r.get? n = some (r.getD n "") := by
  intro r
  induction r with
  | nil => intro n hn; simp at hn
  | cons x xs ih =>
    intro n hn
    cases n with
    | zero => simp
    | succ m =>
      have : m < xs.length := by simpa using hn
      simpa using ih m this

/-- Claim C5: for a requested label column index, labeling is disabled
(not aborted) exactly when the index exceeds the merged header width —
the fixed 12 fields plus this run's extra columns — and for a 1-based
index within the width, the stored label_col picks the record field at
that index (0-based j-1), which exists in every record of merged width,
so the run completes without raising. -/
theorem c5_theorem (processed : List (List String)) (data : List InputRecord) (ipKey : String)
    (j j2 : Nat) (h1 : 1 ≤ j) (h2 : j ≤ (mergedHeader processed data ipKey).length) :
    (mergedHeader processed data ipKey).length =
      12 + (mergeBody processed data ipKey).2.length ∧
    ((labelSetup j2 (mergedHeader processed data ipKey).length).1 = false ↔
      (mergedHeader processed data ipKey).length < j2) ∧
    labelSetup j (mergedHeader processed data ipKey).length = (true, (j : Int) - 1) ∧
    ∀ r : List String, r.length = (mergedHeader processed data ipKey).length →
      pyIndex r ((j : Int) - 1) = some (r.getD (j - 1) "") := by
  refine ⟨?_, ?_, ?_, ?_⟩
  · rw [mergedHeader, List.length_append]
    rfl
  · rw [labelSetup]
    by_cases hgt : (mergedHeader processed data ipKey).length < j2
    · rw [if_pos hgt]
      simp [hgt]
    · rw [if_neg hgt]
      simp [hgt]
  · rw [labelSetup, if_neg (by omega)]
  · intro r hr
    have hpos : (0 : Int) ≤ (j : Int) - 1 := by omega
    rw [pyIndex, if_pos hpos]
    have ht : ((j : Int) - 1).toNat = j - 1 := by omega
    rw [ht]
    apply get?_some_of_lt
    omega

/-- Witness for C5 with one extra column ("c"): merged width 13, index 13
is still enabled and reads field 12, index 14 disables labeling. -/
theorem c5_witness :
    (mergedHeader
        [["9.9.9.9", "1.1", "2.2", "DE", "DEU", "Germany", "BE", "Berlin", "Berlin",
          "10115", "AS3", "ISPX"]]
        ([[("ip", "9.9.9.9"), ("c", "x")]] : List InputRecord) "ip").length =
      12 + (mergeBody
        [["9.9.9.9", "1.1", "2.2", "DE", "DEU", "Germany", "BE", "Berlin", "Berlin",
          "10115", "AS3", "ISPX"]]
        ([[("ip", "9.9.9.9"), ("c", "x")]] : List InputRecord) "ip").2.length ∧
    ((labelSetup 14 (mergedHeader
        [["9.9.9.9", "1.1", "2.2", "DE", "DEU", "Germany", "BE", "Berlin", "Berlin",
          "10115", "AS3", "ISPX"]]
        ([[("ip", "9.9.9.9"), ("c", "x")]] : List InputRecord) "ip").length).1 = false ↔
      (mergedHeader
        [["9.9.9.9", "1.1", "2.2", "DE", "DEU", "Germany", "BE", "Berlin", "Berlin",
          "10115", "AS3", "ISPX"]]
        ([[("ip", "9.9.9.9"), ("c", "x")]] : List InputRecord) "ip").length < 14) ∧
    labelSetup 13 (mergedHeader
        [["9.9.9.9", "1.1", "2.2", "DE", "DEU", "Germany", "BE", "Berlin", "Berlin",
          "10115", "AS3", "ISPX"]]
        ([[("ip", "9.9.9.9"), ("c", "x")]] : List InputRecord) "ip").length =
      (true, (13 : Int) - 1) ∧
    pyIndex (csvHeader ++ ["c"]) ((13 : Int) - 1) =
      some ((csvHeader ++ ["c"]).getD (13 - 1) "") := by
  obtain ⟨ha, hb, hc, hd⟩ := c5_theorem
    [["9.9.9.9", "1.1", "2.2", "DE", "DEU", "Germany", "BE", "Berlin", "Berlin",
      "10115", "AS3", "ISPX"]]
    ([[("ip", "9.9.9.9"), ("c", "x")]] : List InputRecord) "ip" 13 14
    (by decide) (by decide)
  exact ⟨ha, hb, hc, hd (csvHeader ++ ["c"]) (by decide)⟩

/-! ## The address validator (ip2map.py lines 104-184)

`is_valid_ip` = `is_valid_ipv4(ip) or is_valid_ipv6(ip)`, each implemented
as an anchored Python regex (re.VERBOSE | re.IGNORECASE, the IPv6 one also
re.DOTALL).  The regexes are transcribed node by node into a small syntax
tree `Rx` and run by the backtracking matcher `matchR`: a node matches
with a continuation over (reversed consumed text, remaining text);
lookaheads test for the existence of a sub-match from the current spot,
fixed-string lookbehinds inspect the reversed consumed text; `^` is the
empty initial state and `$` the final continuation requiring exhausted
input.  Acceptance (the existence of a match) does not depend on the
search order of the Python engine, so the transcription preserves
`pattern.match(ip) is not None`. -/

inductive Rx where
  | eps
  | cls (p : Char → Bool)
  | seq (a b : Rx)
  | alt (a b : Rx)
  | star (p : Char → Bool)
  | lka (pos : Bool) (r : Rx)
  | lkb (pos : Bool) (s : List Char)

/-- Greedy-or-not repetition of a single-character class: consume any
number of class characters. -/
def starLoop (p : Char → Bool) (bef rest : List Char) (k : List Char → List Char → Bool) : Bool :=
  match rest with
  | [] => k bef []
  | c :: cs => k bef (c :: cs) || (p c && starLoop p (c :: bef) cs k)

/-- Fixed-string lookbehind test: the last consumed characters read `s`. -/
def befChk (s : List Char) (bef : List Char) : Bool :=
  decide (bef.take s.length = s.reverse)

/-- The matcher: `matchR r bef rest k` is true iff some way of matching
`r` at the border between `bef.reverse` and `rest` continues into a
successful `k`. -/
def matchR : Rx → List Char → List Char → (List Char → List Char → Bool) → Bool
  | .eps, bef, rest, k => k bef rest
  | .cls p, bef, rest, k =>
      match rest with
      | [] => false
      | c :: cs => p c && k (c :: bef) cs
  | .seq a b, bef, rest, k => matchR a bef rest (fun bef1 rest1 => matchR b bef1 rest1 k)
  | .alt a b, bef, rest, k => matchR a bef rest k || matchR b bef rest k
  | .star p, bef, rest, k => starLoop p bef rest k
  | .lka pos r, bef, rest, k => (matchR r bef rest (fun _ _ => true) == pos) && k bef rest
  | .lkb pos s, bef, rest, k => (befChk s bef == pos) && k bef rest

/-- A literal character sequence. -/
def litRx (s : List Char) : Rx := s.foldr (fun c r => .seq (.cls (fun x => x == c)) r) .eps

/-- `X?`. -/
def optRx (r : Rx) : Rx := .alt .eps r

/-- `[class]{0,n}`. -/
def repUpTo (p : Char → Bool) : Nat → Rx
  | 0 => .eps
  | n + 1 => .alt .eps (.seq (.cls p) (repUpTo p n))

/-- `(?:X){0,n}`. -/
def repRxUpTo (r : Rx) : Nat → Rx
  | 0 => .eps
  | n + 1 => .alt .eps (.seq r (repRxUpTo r n))

/-- `(?:X){n}`. -/
def powR (r : Rx) : Nat → Rx
  | 0 => .eps
  | n + 1 => .seq r (powR r n)

/-- `\d` (the patterns are byte strings, so ASCII digits). -/
def isDig (c : Char) : Bool := c.isDigit

/-- A character range such as `[3-9]`. -/
def chRange (lo hi c : Char) : Bool := lo ≤ c && c ≤ hi

/-- `[0-9a-f]` under re.IGNORECASE. -/
def isHexD (c : Char) : Bool := isDig c || chRange 'a' 'f' c || chRange 'A' 'F' c

/-- The literal `x` under re.IGNORECASE. -/
def isXx (c : Char) : Bool := c == 'x' || c == 'X'

/-- A case-sensitive literal character. -/
def chEq (a : Char) (c : Char) : Bool := c == a

/-- `\s` on Python 2 byte strings: the six ASCII whitespace characters. -/
def isWs (c : Char) : Bool :=
  c == ' ' || c == '\t' || c == '\n' || c == '\x0d' || c == '\x0b' || c == '\x0c'

/-- One dotted component of the IPv4 pattern (lines 118-125):
`[3-9]\d?|2(?:5[0-5]|[0-4]?\d)?|1\d{0,2}|0x0*[0-9a-f]{1,2}|0+[1-3]?[0-7]{0,2}`. -/
def dottedPart : Rx :=
  .alt (.seq (.cls (chRange '3' '9')) (optRx (.cls isDig)))
  (.alt (.seq (.cls (chEq '2'))
          (optRx (.alt (.seq (.cls (chEq '5')) (.cls (chRange '0' '5')))
                       (.seq (optRx (.cls (chRange '0' '4'))) (.cls isDig)))))
  (.alt (.seq (.cls (chEq '1')) (repUpTo isDig 2))
  (.alt (.seq (.cls (chEq '0')) (.seq (.cls isXx) (.seq (.star (chEq '0'))
          (.seq (.cls isHexD) (repUpTo isHexD 1)))))
        (.seq (.cls (chEq '0')) (.seq (.star (chEq '0'))
          (.seq (optRx (.cls (chRange '1' '3'))) (repUpTo (chRange '0' '7') 2)))))))

/-- `0x0*[0-9a-f]{1,8}` (line 137). -/
def hex32 : Rx :=
  .seq (.cls (chEq '0')) (.seq (.cls isXx) (.seq (.star (chEq '0'))
    (.seq (.cls isHexD) (repUpTo isHexD 7))))

/-- `0+[0-3]?[0-7]{0,10}` (line 139). -/
def octal32 : Rx :=
  .seq (.cls (chEq '0')) (.seq (.star (chEq '0'))
    (.seq (optRx (.cls (chRange '0' '3'))) (repUpTo (chRange '0' '7') 10)))

/-- The decimal 1-4294967295 alternation of lines 142-144. -/
def bigDec : Rx :=
  .alt (.seq (litRx "429496729".toList) (.cls (chRange '0' '5')))
  (.alt (.seq (litRx "42949672".toList) (.seq (.cls (chRange '0' '8')) (.cls isDig)))
  (.alt (.seq (litRx "4294967".toList) (.seq (.cls (chRange '0' '1')) (powR (.cls isDig) 2)))
  (.alt (.seq (litRx "429496".toList) (.seq (.cls (chRange '0' '6')) (powR (.cls isDig) 3)))
  (.alt (.seq (litRx "42949".toList) (.seq (.cls (chRange '0' '5')) (powR (.cls isDig) 4)))
  (.alt (.seq (litRx "4294".toList) (.seq (.cls (chRange '0' '8')) (powR (.cls isDig) 5)))
  (.alt (.seq (litRx "429".toList) (.seq (.cls (chRange '0' '3')) (powR (.cls isDig) 6)))
  (.alt (.seq (litRx "42".toList) (.seq (.cls (chRange '0' '8')) (powR (.cls isDig) 7)))
  (.alt (.seq (litRx "4".toList) (.seq (.cls (chRange '0' '1')) (powR (.cls isDig) 8)))
  (.alt (.seq (.cls (chRange '1' '3')) (repUpTo isDig 9))
        (.seq (.cls (chRange '4' '9')) (repUpTo isDig 8)))))))))))

/-- The whole IPv4 pattern of lines 114-147 (between `^` and `$`). -/
def ipv4Rx : Rx :=
  .alt (.seq dottedPart (repRxUpTo (.seq (.cls (chEq '.')) dottedPart) 3))
  (.alt hex32
  (.alt octal32 bigDec))

/-- The final continuation: `$`, the input must be exhausted. -/
def emptyK : List Char → List Char → Bool := fun _ rest => rest.isEmpty

/-- `is_valid_ipv4` of lines 110-148. -/
def is_valid_ipv4 (s : String) : Bool := matchR ipv4Rx [] s.toList emptyK

/-- The v4 octet of the embedded tail (lines 173, 175):
`(?:25[0-4]|2[0-4]\d|1\d\d|[1-9]?\d)`. -/
def octRx : Rx :=
  .alt (.seq (litRx ['2', '5']) (.cls (chRange '0' '4')))
  (.alt (.seq (.cls (chEq '2')) (.seq (.cls (chRange '0' '4')) (.cls isDig)))
  (.alt (.seq (.cls (chEq '1')) (.seq (.cls isDig) (.cls isDig)))
        (.seq (optRx (.cls (chRange '1' '9'))) (.cls isDig))))

/-- `(?:(?<=::)|(?<!::):)` (lines 162, 166). -/
def colonRule : Rx :=
  .alt (.lkb true [':', ':']) (.seq (.lkb false [':', ':']) (.cls (chEq ':')))

/-- One of the six repeated groups (lines 160-163). -/
def groupUnit : Rx := .seq (repUpTo isHexD 4) colonRule

/-- The closing rule of the hex tail (lines 168-171):
`(?:(?<=::)|(?<!:)|(?<=:)(?<!::):)`. -/
def endRule : Rx :=
  .alt (.lkb true [':', ':'])
  (.alt (.lkb false [':'])
        (.seq (.lkb true [':']) (.seq (.lkb false [':', ':']) (.cls (chEq ':')))))

/-- The hex variant of the tail (lines 165-171). -/
def v6TailHex : Rx := .seq (repUpTo isHexD 4) (.seq colonRule (.seq (repUpTo isHexD 4) endRule))

/-- The embedded v4 tail (lines 173-176). -/
def v4Tail : Rx := .seq octRx (powR (.seq (.cls (chEq '.')) octRx) 3)

/-- `.*::.*::` under re.DOTALL, the body of the wildcard lookahead of
line 158. -/
def twoWild : Rx :=
  .seq (.star (fun _ => true))
    (.seq (litRx [':', ':']) (.seq (.star (fun _ => true)) (litRx [':', ':'])))

/-- `(?:(?!:)|:(?=:))` (line 159). -/
def startRule : Rx :=
  .alt (.lka false (.cls (chEq ':')))
       (.seq (.cls (chEq ':')) (.lka true (.cls (chEq ':'))))

/-- The whole IPv6 pattern of lines 155-179 (between `^` and `$`). -/
def ipv6Rx : Rx :=
  .seq (.star isWs)
  (.seq (.lka false twoWild)
  (.seq startRule
  (.seq (powR groupUnit 6)
  (.seq (.alt v6TailHex v4Tail)
        (.star isWs)))))

/-- `is_valid_ipv6` of lines 151-181. -/
def is_valid_ipv6 (s : String) : Bool := matchR ipv6Rx [] s.toList emptyK

/-- `is_valid_ip` of line 184. -/
def is_valid_ip (s : String) : Bool := is_valid_ipv4 s || is_valid_ipv6 s

/-- Full exact match of a pattern against a piece of text. -/
def matchConsumes (r : Rx) (l : List Char) : Bool := matchR r [] l emptyK

theorem matchR_eps (bef rest : List Char) (k : List Char → List Char → Bool) :
    matchR .eps bef rest k = k bef rest := rfl

theorem matchR_cls_nil (p : Char → Bool) (bef : List Char) (k : List Char → List Char → Bool) :
    matchR (.cls p) bef [] k = false := rfl

theorem matchR_cls_cons (p : Char → Bool) (bef : List Char) (c : Char) (cs : List Char)
    (k : List Char → List Char → Bool) :
    matchR (.cls p) bef (c :: cs) k = (p c && k (c :: bef) cs) := rfl

theorem matchR_seq (a b : Rx) (bef rest : List Char) (k : List Char → List Char → Bool) :
    matchR (.seq a b) bef rest k =
      matchR a bef rest (fun bef1 rest1 => matchR b bef1 rest1 k) := rfl

theorem matchR_alt (a b : Rx) (bef rest : List Char) (k : List Char → List Char → Bool) :
    matchR (.alt a b) bef rest k = (matchR a bef rest k || matchR b bef rest k) := rfl

theorem matchR_star (p : Char → Bool) (bef rest : List Char) (k : List Char → List Char → Bool) :
    matchR (.star p) bef rest k = starLoop p bef rest k := rfl

theorem matchR_lka (pos : Bool) (r : Rx) (bef rest : List Char)
    (k : List Char → List Char → Bool) :
    matchR (.lka pos r) bef rest k =
      ((matchR r bef rest (fun _ _ => true) == pos) && k bef rest) := rfl

theorem matchR_lkb (pos : Bool) (s bef rest : List Char) (k : List Char → List Char → Bool) :
    matchR (.lkb pos s) bef rest k = ((befChk s bef == pos) && k bef rest) := rfl

theorem starLoop_nil (p : Char → Bool) (bef : List Char) (k : List Char → List Char → Bool) :
    starLoop p bef [] k = k bef [] := rfl

theorem starLoop_cons (p : Char → Bool) (bef : List Char) (c : Char) (cs : List Char)
    (k : List Char → List Char → Bool) :
    starLoop p bef (c :: cs) k = (k bef (c :: cs) || (p c && starLoop p (c :: bef) cs k)) := rfl

theorem starLoop_intro (p : Char → Bool) :
    ∀ (pre : List Char), (∀ c ∈ pre, p c = true) →
      ∀ (bef post : List Char) (k : List Char → List Char → Bool),
        k (pre.reverse ++ bef) post = true →
        starLoop p bef (pre ++ post) k = true := by
  intro pre
  induction pre with
  | nil =>
    intro _ bef post k hk
    cases post with
    | nil => simpa [starLoop_nil] using hk
    | cons c cs =>
      rw [List.nil_append, starLoop_cons, Bool.or_eq_true]
      left
      simpa using hk
  | cons c pre ih =>
    intro hall bef post k hk
    rw [List.cons_append, starLoop_cons, Bool.or_eq_true]
    right
    rw [Bool.and_eq_true]
    refine ⟨hall c (by simp), ?_⟩
    apply ih (fun x hx => hall x (by simp [hx])) (c :: bef) post k
    simpa [List.append_assoc] using hk

theorem lit_intro (s : List Char) :
    ∀ (bef rest : List Char) (k : List Char → List Char → Bool),
      k (s.reverse ++ bef) rest = true →
      matchR (litRx s) bef (s ++ rest) k = true := by
  induction s with
  | nil => intro bef rest k hk; simpa [litRx, matchR_eps] using hk
  | cons c cs ih =>
    intro bef rest k hk
    rw [litRx, List.foldr_cons, List.cons_append, matchR_seq, matchR_cls_cons,
      Bool.and_eq_true]
    refine ⟨by simp, ?_⟩
    apply ih (c :: bef) rest k
    simpa [List.append_assoc] using hk

theorem repUpTo_intro (p : Char → Bool) :
    ∀ (m : Nat) (g : List Char), g.length ≤ m → (∀ c ∈ g, p c = true) →
      ∀ (bef rest : List Char) (k : List Char → List Char → Bool),
        k (g.reverse ++ bef) rest = true →
        matchR (repUpTo p m) bef (g ++ rest) k = true := by
  intro m
  induction m with
  | zero =>
    intro g hg _ bef rest k hk
    rw [List.length_eq_zero.mp (Nat.le_zero.mp hg)] at hk ⊢
    simpa [repUpTo, matchR_eps] using hk
  | succ m ih =>
    intro g hg hall bef rest k hk
    cases g with
    | nil =>
      rw [repUpTo, List.nil_append, matchR_alt, Bool.or_eq_true]
      left
      simpa [matchR_eps] using hk
    | cons c cs =>
      rw [repUpTo, List.cons_append, matchR_alt, Bool.or_eq_true]
      right
      rw [matchR_seq, matchR_cls_cons, Bool.and_eq_true]
      refine ⟨hall c (by simp), ?_⟩
      apply ih cs (by simpa using hg) (fun x hx => hall x (by simp [hx])) (c :: bef) rest k
      simpa [List.append_assoc] using hk

theorem powR_add (r : Rx) (a : Nat) :
    ∀ (b : Nat) (bef rest : List Char) (k : List Char → List Char → Bool),
      matchR (powR r (a + b)) bef rest k =
        matchR (powR r a) bef rest (fun b1 r1 => matchR (powR r b) b1 r1 k) := by
  induction a with
  | zero => intro b bef rest k; simp [powR, matchR_eps]
  | succ m ih =>
    intro b bef rest k
    have : m + 1 + b = (m + b) + 1 := by omega
    rw [this, powR, powR, matchR_seq, matchR_seq]
    congr 1
    funext b1 r1
    rw [ih]

theorem starLoop_split (p : Char → Bool) :
    ∀ (rest bef : List Char) (k : List Char → List Char → Bool),
      starLoop p bef rest k = true →
      ∃ n, n ≤ rest.length ∧ (∀ c ∈ rest.take n, p c = true) ∧
        k ((rest.take n).reverse ++ bef) (rest.drop n) = true := by
  intro rest
  induction rest with
  | nil =>
    intro bef k h
    exact ⟨0, by simp, by simp, by simpa [starLoop_nil] using h⟩
  | cons c cs ih =>
    intro bef k h
    rw [starLoop_cons, Bool.or_eq_true] at h
    rcases h with h1 | h1
    · exact ⟨0, by simp, by simp, by simpa using h1⟩
    · rw [Bool.and_eq_true] at h1
      obtain ⟨n, hn, hall, hk⟩ := ih (c :: bef) k h1.2
      refine ⟨n + 1, by simpa using hn, ?_, ?_⟩
      · intro x hx
        rw [List.take_succ_cons] at hx
        rcases List.mem_cons.mp hx with h2 | h2
        · exact h2 ▸ h1.1
        · exact hall x h2
      · rw [List.take_succ_cons, List.drop_succ_cons]
        simpa [List.append_assoc] using hk

/-- The union of the character classes a pattern can consume from
(lookaround interiors consume nothing and are ignored). -/
def classP (P : Char → Prop) : Rx → Prop
  | .eps => True
  | .cls p => ∀ c, p c = true → P c
  | .seq a b => classP P a ∧ classP P b
  | .alt a b => classP P a ∧ classP P b
  | .star p => ∀ c, p c = true → P c
  | .lka _ _ => True
  | .lkb _ _ => True

theorem matchR_chars (P : Char → Prop) :
    ∀ r : Rx, classP P r → ∀ (bef rest : List Char) (k : List Char → List Char → Bool),
      matchR r bef rest k = true →
      ∃ n, n ≤ rest.length ∧ (∀ c ∈ rest.take n, P c) ∧
        k ((rest.take n).reverse ++ bef) (rest.drop n) = true := by
  intro r
  induction r with
  | eps =>
    intro _ bef rest k h
    exact ⟨0, by simp, by simp, by simpa [matchR_eps] using h⟩
  | cls p =>
    intro hcls bef rest k h
    cases rest with
    | nil => rw [matchR_cls_nil] at h; exact absurd h (by simp)
    | cons c cs =>
      rw [matchR_cls_cons, Bool.and_eq_true] at h
      refine ⟨1, by simp, ?_, by simpa using h.2⟩
      intro x hx
      simp at hx
      exact hx ▸ hcls c h.1
  | seq a b iha ihb =>
    intro hcls bef rest k h
    rw [matchR_seq] at h
    obtain ⟨n1, hn1, hc1, hk1⟩ := iha hcls.1 bef rest _ h
    obtain ⟨n2, hn2, hc2, hk2⟩ := ihb hcls.2 _ _ _ hk1
    refine ⟨n1 + n2, ?_, ?_, ?_⟩
    · rw [List.length_drop] at hn2; omega
    · rw [List.take_add]
      intro c hc
      rcases List.mem_append.mp hc with h1 | h1
      · exact hc1 c h1
      · exact hc2 c h1
    · rw [List.take_add, List.reverse_append, List.append_assoc]
      have hd : rest.drop (n1 + n2) = (rest.drop n1).drop n2 := by
        rw [List.drop_drop, Nat.add_comm]
      rw [hd]
      exact hk2
  | alt a b iha ihb =>
    intro hcls bef rest k h
    rw [matchR_alt, Bool.or_eq_true] at h
    rcases h with h | h
    · exact iha hcls.1 bef rest k h
    · exact ihb hcls.2 bef rest k h
  | star p =>
    intro hcls bef rest k h
    rw [matchR_star] at h
    obtain ⟨n, hn, hall, hk⟩ := starLoop_split p rest bef k h
    exact ⟨n, hn, fun c hc => hcls c (hall c hc), hk⟩
  | lka pos r ihr =>
    intro _ bef rest k h
    rw [matchR_lka, Bool.and_eq_true] at h
    exact ⟨0, by simp, by simp, by simpa using h.2⟩
  | lkb pos s =>
    intro _ bef rest k h
    rw [matchR_lkb, Bool.and_eq_true] at h
    exact ⟨0, by simp, by simp, by simpa using h.2⟩

theorem classP_leaf (P : Char → Prop) (a : Char) (p : Char → Bool)
    (hp : p a = false) (hP : ∀ c, c ≠ a → P c) : ∀ c, p c = true → P c := by
  intro c hc
  by_cases hca : c = a
  · subst hca
    rw [hp] at hc
    exact absurd hc (by simp)
  · exact hP c hca

theorem classP_colon_leaf (p : Char → Bool) (hp : p ':' = false) :
    ∀ c, p c = true → c ≠ ':' :=
  classP_leaf (fun c => c ≠ ':') ':' p hp (fun _ h => h)

theorem classP_ipv4 : classP (fun c => c ≠ ':') ipv4Rx := by
  rw [ipv4Rx, dottedPart, hex32, octal32, bigDec]
  repeat' first
    | exact trivial
    | exact classP_colon_leaf _ (by decide)
    | constructor

/-- The IPv4 pattern consumes only non-colon characters, so an accepted
string contains no ':'. -/
theorem ipv4_no_colon (s : String) (h : is_valid_ipv4 s = true) :
    ∀ c ∈ s.toList, c ≠ ':' := by
  rw [is_valid_ipv4] at h
  obtain ⟨n, _, hall, hk⟩ :=
    matchR_chars (fun c => c ≠ ':') ipv4Rx classP_ipv4 [] s.toList emptyK h
  have hdrop : s.toList.drop n = [] := by
    simpa [emptyK] using hk
  have htake : s.toList.take n = s.toList := by
    have h2 := List.take_append_drop n s.toList
    rw [hdrop, List.append_nil] at h2
    exact h2
  rw [← htake]
  exact hall

/-- Patterns without lookarounds: their matching reads neither the
consumed text nor anything beyond what they consume. -/
inductive Plain : Rx → Prop
  | eps : Plain .eps
  | cls (p : Char → Bool) : Plain (.cls p)
  | seq (a b : Rx) : Plain a → Plain b → Plain (.seq a b)
  | alt (a b : Rx) : Plain a → Plain b → Plain (.alt a b)
  | star (p : Char → Bool) : Plain (.star p)

theorem matchConsumes_eq (r : Rx) (l : List Char) :
    matchConsumes r l = matchR r [] l emptyK := rfl

theorem plain_main (r : Rx) (hr : Plain r) :
    (∀ (bef rest : List Char) (k : List Char → List Char → Bool),
      matchR r bef rest k = true →
      ∃ n, n ≤ rest.length ∧ matchConsumes r (rest.take n) = true ∧
        k ((rest.take n).reverse ++ bef) (rest.drop n) = true) ∧
    (∀ l : List Char, matchConsumes r l = true →
      ∀ (bef rest : List Char) (k : List Char → List Char → Bool),
        k (l.reverse ++ bef) rest = true → matchR r bef (l ++ rest) k = true) := by
  induction hr with
  | eps =>
    constructor
    · intro bef rest k h
      exact ⟨0, by simp, by simp [matchConsumes_eq, matchR_eps, emptyK],
        by simpa [matchR_eps] using h⟩
    · intro l hl bef rest k hk
      have : l = [] := by simpa [matchConsumes_eq, matchR_eps, emptyK] using hl
      subst this
      simpa [matchR_eps] using hk
  | cls p =>
    constructor
    · intro bef rest k h
      cases rest with
      | nil => rw [matchR_cls_nil] at h; exact absurd h (by simp)
      | cons c cs =>
        rw [matchR_cls_cons, Bool.and_eq_true] at h
        refine ⟨1, by simp, ?_, by simpa using h.2⟩
        simp [matchConsumes_eq, matchR_cls_cons, emptyK, h.1]
    · intro l hl bef rest k hk
      cases l with
      | nil =>
        rw [matchConsumes_eq, matchR_cls_nil] at hl
        exact absurd hl (by simp)
      | cons c cs =>
        rw [matchConsumes_eq, matchR_cls_cons, Bool.and_eq_true] at hl
        have hcs : cs = [] := by simpa [emptyK] using hl.2
        subst hcs
        rw [List.cons_append, List.nil_append, matchR_cls_cons, Bool.and_eq_true]
        exact ⟨hl.1, by simpa using hk⟩
  | seq a b ha hb iha ihb =>
    constructor
    · intro bef rest k h
      rw [matchR_seq] at h
      obtain ⟨n1, hn1, hca, hk1⟩ := iha.1 bef rest _ h
      obtain ⟨n2, hn2, hcb, hk2⟩ := ihb.1 _ _ _ hk1
      refine ⟨n1 + n2, ?_, ?_, ?_⟩
      · rw [List.length_drop] at hn2; omega
      · rw [matchConsumes_eq, List.take_add, matchR_seq]
        apply iha.2 _ hca
        have hb2 : matchR b ((rest.take n1).reverse ++ []) ((rest.drop n1).take n2 ++ [])
            emptyK = true := by
          apply ihb.2 _ hcb
          simp [emptyK]
        simpa using hb2
      · rw [List.take_add, List.reverse_append, List.append_assoc]
        have hd : rest.drop (n1 + n2) = (rest.drop n1).drop n2 := by
          rw [List.drop_drop, Nat.add_comm]
        rw [hd]
        exact hk2
    · intro l hl bef rest k hk
      rw [matchConsumes_eq, matchR_seq] at hl
      obtain ⟨n1, hn1, hca, hk1⟩ := iha.1 [] l _ hl
      obtain ⟨n2, hn2, hcb, hk2⟩ := ihb.1 _ _ _ hk1
      have hdrop : (l.drop n1).drop n2 = [] := by simpa [emptyK] using hk2
      have hlen0 : ((l.drop n1).drop n2).length = 0 := by rw [hdrop]; rfl
      rw [List.length_drop] at hlen0
      have hn2len : n2 = (l.drop n1).length := by omega
      have htake2 : (l.drop n1).take n2 = l.drop n1 := by
        rw [hn2len, List.take_length]
      rw [htake2] at hcb
      have hsplit : l = l.take n1 ++ l.drop n1 := (List.take_append_drop n1 l).symm
      rw [matchR_seq]
      rw [hsplit, List.append_assoc]
      apply iha.2 _ hca
      apply ihb.2 _ hcb
      rw [← List.append_assoc, ← List.reverse_append, ← hsplit]
      exact hk
  | alt a b ha hb iha ihb =>
    constructor
    · intro bef rest k h
      rw [matchR_alt, Bool.or_eq_true] at h
      rcases h with h | h
      · obtain ⟨n, hn, hc, hk⟩ := iha.1 bef rest k h
        refine ⟨n, hn, ?_, hk⟩
        rw [matchConsumes_eq, matchR_alt, Bool.or_eq_true]
        exact Or.inl hc
      · obtain ⟨n, hn, hc, hk⟩ := ihb.1 bef rest k h
        refine ⟨n, hn, ?_, hk⟩
        rw [matchConsumes_eq, matchR_alt, Bool.or_eq_true]
        exact Or.inr hc
    · intro l hl bef rest k hk
      rw [matchConsumes_eq, matchR_alt, Bool.or_eq_true] at hl
      rw [matchR_alt, Bool.or_eq_true]
      rcases hl with hl | hl
      · exact Or.inl (iha.2 l hl bef rest k hk)
      · exact Or.inr (ihb.2 l hl bef rest k hk)
  | star p =>
    constructor
    · intro bef rest k h
      rw [matchR_star] at h
      obtain ⟨n, hn, hall, hk⟩ := starLoop_split p rest bef k h
      refine ⟨n, hn, ?_, hk⟩
      rw [matchConsumes_eq, matchR_star]
      have := starLoop_intro p (rest.take n) hall [] [] emptyK (by simp [emptyK])
      simpa using this
    · intro l hl bef rest k hk
      rw [matchConsumes_eq, matchR_star] at hl
      obtain ⟨n, hn, hall, hk2⟩ := starLoop_split p l [] emptyK hl
      have hdrop : l.drop n = [] := by simpa [emptyK] using hk2
      have htake : l.take n = l := by
        have h2 := List.take_append_drop n l
        rw [hdrop, List.append_nil] at h2
        exact h2
      rw [htake] at hall
      rw [matchR_star]
      exact starLoop_intro p l hall bef rest k hk

theorem plain_intro (r : Rx) (hr : Plain r) (l : List Char) (hc : matchConsumes r l = true)
    (bef rest : List Char) (k : List Char → List Char → Bool)
    (hk : k (l.reverse ++ bef) rest = true) : matchR r bef (l ++ rest) k = true :=
  (plain_main r hr).2 l hc bef rest k hk

theorem plain_octRx : Plain octRx := by
  rw [octRx]
  repeat' constructor

theorem plain_twoWild : Plain twoWild := by
  rw [twoWild]
  repeat' constructor

/-- All octet strings 0-254 in decimal match the tail octet pattern, are
made of digits, and are nonempty (checked by evaluation). -/
theorem oct_table :
    ((List.range 255).all (fun n => matchConsumes octRx (Nat.repr n).toList &&
      (Nat.repr n).toList.all isDig && !(Nat.repr n).toList.isEmpty)) = true := by decide

theorem oct_repr_facts (n : Nat) (h : n ≤ 254) :
    matchConsumes octRx (Nat.repr n).toList = true ∧
    (∀ c ∈ (Nat.repr n).toList, isDig c = true) ∧ (Nat.repr n).toList ≠ [] := by
  have hmem : n ∈ List.range 255 := List.mem_range.mpr (by omega)
  have h1 := List.all_eq_true.mp oct_table n hmem
  rw [Bool.and_eq_true, Bool.and_eq_true] at h1
  refine ⟨h1.1.1, ?_, ?_⟩
  · intro c hc
    exact List.all_eq_true.mp h1.1.2 c hc
  · intro hnil
    rw [hnil] at h1
    simp at h1

theorem twoWild_intro (bef u v w : List Char) :
    matchR twoWild bef (u ++ ':' :: ':' :: (v ++ ':' :: ':' :: w))
      (fun _ _ => true) = true := by
  rw [twoWild, matchR_seq, matchR_star]
  apply starLoop_intro (fun _ => true) u (by simp) bef _ _
  show matchR (.seq (litRx [':', ':']) (.seq (.star fun _ => true) (litRx [':', ':'])))
    (u.reverse ++ bef) (':' :: ':' :: (v ++ ':' :: ':' :: w)) (fun _ _ => true) = true
  rw [matchR_seq]
  have he : (':' :: ':' :: (v ++ ':' :: ':' :: w)) =
      [':', ':'] ++ (v ++ ':' :: ':' :: w) := rfl
  rw [he]
  apply lit_intro
  show matchR (.seq (.star fun _ => true) (litRx [':', ':'])) _ (v ++ ':' :: ':' :: w) _ = true
  rw [matchR_seq, matchR_star]
  apply starLoop_intro (fun _ => true) v (by simp) _ _ _
  show matchR (litRx [':', ':']) _ (':' :: ':' :: w) _ = true
  have he2 : (':' :: ':' :: w) = [':', ':'] ++ w := rfl
  rw [he2]
  apply lit_intro
  rfl

theorem ws_peel : ∀ (pre post u tail : List Char), (∀ c ∈ pre, isWs c = true) →
    pre ++ post = u ++ ':' :: tail → ∃ u2, post = u2 ++ ':' :: tail := by
  intro pre
  induction pre with
  | nil =>
    intro post u tail _ he
    exact ⟨u, by simpa using he⟩
  | cons c pre ih =>
    intro post u tail hws he
    cases u with
    | nil =>
      rw [List.nil_append, List.cons_append] at he
      have hc : c = ':' := (List.cons.injEq _ _ _ _).mp he |>.1
      have := hws c (by simp)
      rw [hc] at this
      exact absurd this (by decide)
    | cons c2 u2 =>
      rw [List.cons_append, List.cons_append] at he
      have h2 := (List.cons.injEq _ _ _ _).mp he |>.2
      obtain ⟨u3, hu3⟩ := ih post u2 tail (fun x hx => hws x (by simp [hx])) h2
      exact ⟨u3, hu3⟩

theorem starLoop_false (p : Char → Bool) :
    ∀ (rest bef : List Char) (k : List Char → List Char → Bool),
      (∀ pre post, rest = pre ++ post → (∀ c ∈ pre, p c = true) →
        k (pre.reverse ++ bef) post = false) →
      starLoop p bef rest k = false := by
  intro rest
  induction rest with
  | nil =>
    intro bef k h
    rw [starLoop_nil]
    simpa using h [] [] rfl (by simp)
  | cons c cs ih =>
    intro bef k h
    have h0 : k bef (c :: cs) = false := by simpa using h [] (c :: cs) rfl (by simp)
    by_cases hp : p c = true
    · have hrec : starLoop p (c :: bef) cs k = false := by
        apply ih
        intro pre post hsplit hall
        have := h (c :: pre) post (by rw [hsplit]; rfl)
          (by
            intro x hx
            rcases List.mem_cons.mp hx with h1 | h1
            · exact h1 ▸ hp
            · exact hall x h1)
        simpa [List.append_assoc] using this
      rw [starLoop_cons, h0, hp, hrec]
      rfl
    · rw [Bool.not_eq_true] at hp
      rw [starLoop_cons, h0, hp]
      rfl

theorem seq_lka_false (pos : Bool) (r rest2 : Rx) (bef post : List Char)
    (k : List Char → List Char → Bool)
    (h : (matchR r bef post (fun _ _ => true) == pos) = false) :
    matchR (.seq (.lka pos r) rest2) bef post k = false := by
  rw [matchR_seq, matchR_lka, h]
  rfl

theorem ipv6_two_wild_false (s u v w : List Char)
    (hs : s = u ++ ':' :: ':' :: (v ++ ':' :: ':' :: w)) :
    matchR ipv6Rx [] s emptyK = false := by
  rw [ipv6Rx, matchR_seq, matchR_star]
  apply starLoop_false
  intro pre post hsplit hall
  rw [hs] at hsplit
  obtain ⟨u2, hpost⟩ := ws_peel pre post u (':' :: (v ++ ':' :: ':' :: w)) hall hsplit.symm
  have htw : matchR twoWild (pre.reverse ++ []) post (fun _ _ => true) = true := by
    rw [hpost]
    exact twoWild_intro _ u2 v w
  exact seq_lka_false false twoWild
    (.seq startRule (.seq (powR groupUnit 6) (.seq (.alt v6TailHex v4Tail) (.star isWs))))
    (pre.reverse ++ []) post emptyK (by rw [htw]; rfl)

/-- A position with two adjacent colons exists. -/
def hasCC : List Char → Bool
  | [] => false
  | [_] => false
  | a :: b :: t => (a == ':' && b == ':') || hasCC (b :: t)

/-- Two disjoint adjacent-colon pairs exist (the earliest pair, then any
pair in what follows it). -/
def hasCC2 : List Char → Bool
  | [] => false
  | [_] => false
  | a :: b :: t => if a == ':' && b == ':' then hasCC t else hasCC2 (b :: t)

theorem hasCC_cons_cons (a b : Char) (t : List Char) :
    hasCC (a :: b :: t) = ((a == ':' && b == ':') || hasCC (b :: t)) := rfl

theorem hasCC2_cons_cons (a b : Char) (t : List Char) :
    hasCC2 (a :: b :: t) = if a == ':' && b == ':' then hasCC t else hasCC2 (b :: t) := rfl

theorem hasCC_of_decomp : ∀ (a b : List Char), hasCC (a ++ ':' :: ':' :: b) = true := by
  intro a
  induction a with
  | nil =>
    intro b
    rw [List.nil_append, hasCC_cons_cons]
    simp
  | cons c a ih =>
    intro b
    rw [List.cons_append]
    cases ha : a ++ ':' :: ':' :: b with
    | nil => exact absurd ha (by simp)
    | cons d t =>
      rw [hasCC_cons_cons, Bool.or_eq_true]
      right
      rw [← ha]
      exact ih b

theorem hasCC2_of_decomp : ∀ (u v w : List Char),
    hasCC2 (u ++ ':' :: ':' :: (v ++ ':' :: ':' :: w)) = true := by
  intro u
  induction u with
  | nil =>
    intro v w
    rw [List.nil_append, hasCC2_cons_cons]
    simp only [beq_self_eq_true, Bool.and_self, if_true]
    exact hasCC_of_decomp v w
  | cons c u ih =>
    intro v w
    rw [List.cons_append]
    cases hu : u ++ ':' :: ':' :: (v ++ ':' :: ':' :: w) with
    | nil => exact absurd hu (by simp)
    | cons d t =>
      rw [hasCC2_cons_cons]
      by_cases hp : (c == ':' && d == ':') = true
      · rw [if_pos hp]
        have hd : d = ':' := by
          rw [Bool.and_eq_true] at hp
          simpa using hp.2
        cases u with
        | nil =>
          have ht : t = ':' :: (v ++ ':' :: ':' :: w) := by
            rw [List.nil_append] at hu
            exact ((List.cons.injEq _ _ _ _).mp hu).2.symm
          rw [ht]
          have he : ':' :: (v ++ ':' :: ':' :: w) = (':' :: v) ++ ':' :: ':' :: w := rfl
          rw [he]
          exact hasCC_of_decomp (':' :: v) w
        | cons e u2 =>
          have ht : t = u2 ++ ':' :: ':' :: (v ++ ':' :: ':' :: w) := by
            rw [List.cons_append] at hu
            exact ((List.cons.injEq _ _ _ _).mp hu).2.symm
          rw [ht]
          exact hasCC_of_decomp u2 (v ++ ':' :: ':' :: w)
      · rw [if_neg hp, ← hu]
        exact ih v w

theorem hasCC_skip (c : Char) (hc : c ≠ ':') (l : List Char) : hasCC (c :: l) = hasCC l := by
  cases l with
  | nil => rfl
  | cons b t =>
    rw [hasCC_cons_cons]
    have : (c == ':') = false := by simpa using hc
    rw [this]
    simp

theorem hasCC2_skip (c : Char) (hc : c ≠ ':') (l : List Char) :
    hasCC2 (c :: l) = hasCC2 l := by
  cases l with
  | nil => rfl
  | cons b t =>
    rw [hasCC2_cons_cons]
    have : (c == ':') = false := by simpa using hc
    rw [this]
    simp

theorem hasCC_skip_chunk (a : List Char) (ha : ∀ c ∈ a, c ≠ ':') (l : List Char) :
    hasCC (a ++ l) = hasCC l := by
  induction a with
  | nil => simp
  | cons c a ih =>
    rw [List.cons_append, hasCC_skip c (ha c (by simp))]
    exact ih (fun x hx => ha x (by simp [hx]))

theorem hasCC2_skip_chunk (a : List Char) (ha : ∀ c ∈ a, c ≠ ':') (l : List Char) :
    hasCC2 (a ++ l) = hasCC2 l := by
  induction a with
  | nil => simp
  | cons c a ih =>
    rw [List.cons_append, hasCC2_skip c (ha c (by simp))]
    exact ih (fun x hx => ha x (by simp [hx]))

theorem hasCC_nocolon (l : List Char) (h : ∀ c ∈ l, c ≠ ':') : hasCC l = false := by
  have := hasCC_skip_chunk l h []
  simpa using this

theorem hasCC2_nocolon (l : List Char) (h : ∀ c ∈ l, c ≠ ':') : hasCC2 l = false := by
  have := hasCC2_skip_chunk l h []
  simpa using this

theorem hasCC_colon_cons (c : Char) (hc : c ≠ ':') (t : List Char) :
    hasCC (':' :: c :: t) = hasCC (c :: t) := by
  rw [hasCC_cons_cons]
  have : (c == ':') = false := by simpa using hc
  rw [this]
  simp

theorem hasCC2_colon_cons (c : Char) (hc : c ≠ ':') (t : List Char) :
    hasCC2 (':' :: c :: t) = hasCC2 (c :: t) := by
  rw [hasCC2_cons_cons]
  have : (c == ':') = false := by simpa using hc
  rw [this]
  simp

theorem hasCC_append_nocolon (b : List Char) (hb : ∀ c ∈ b, c ≠ ':') :
    ∀ a : List Char, hasCC (a ++ b) = hasCC a := by
  intro a
  induction a with
  | nil =>
    rw [List.nil_append]
    exact hasCC_nocolon b hb
  | cons x a ih =>
    cases a with
    | nil =>
      rw [List.cons_append, List.nil_append]
      cases b with
      | nil => rfl
      | cons c t =>
        rw [hasCC_cons_cons]
        have h1 : (c == ':') = false := by simpa using hb c (by simp)
        rw [h1, Bool.and_false, Bool.false_or, hasCC_nocolon (c :: t) hb]
        simp [hasCC]
    | cons y a2 =>
      rw [List.cons_append, List.cons_append, hasCC_cons_cons, hasCC_cons_cons]
      have h2 : hasCC (y :: (a2 ++ b)) = hasCC (y :: a2) := by
        have h3 := ih
        rw [List.cons_append] at h3
        exact h3
      rw [h2]

theorem hasCC2_append_nocolon (b : List Char) (hb : ∀ c ∈ b, c ≠ ':') :
    ∀ a : List Char, hasCC2 (a ++ b) = hasCC2 a := by
  intro a
  induction a with
  | nil =>
    rw [List.nil_append]
    exact hasCC2_nocolon b hb
  | cons x a ih =>
    cases a with
    | nil =>
      rw [List.cons_append, List.nil_append]
      cases b with
      | nil => rfl
      | cons c t =>
        rw [hasCC2_cons_cons]
        have h1 : (c == ':') = false := by simpa using hb c (by simp)
        rw [h1, Bool.and_false, if_neg (by simp), hasCC2_nocolon (c :: t) hb]
        simp [hasCC2]
    | cons y a2 =>
      rw [List.cons_append, List.cons_append, hasCC2_cons_cons, hasCC2_cons_cons]
      have h2 : hasCC2 (y :: (a2 ++ b)) = hasCC2 (y :: a2) := by
        have h3 := ih
        rw [List.cons_append] at h3
        exact h3
      by_cases hp : (x == ':' && y == ':') = true
      · rw [if_pos hp, if_pos hp]
        exact hasCC_append_nocolon b hb a2
      · rw [if_neg hp, if_neg hp]
        exact h2

theorem hasCC_decomp_of (l : List Char) :
    hasCC l = true → ∃ p q, l = p ++ ':' :: ':' :: q := by
  induction l with
  | nil => intro h; exact absurd h (by simp [hasCC])
  | cons a t ih =>
    intro h
    cases t with
    | nil => exact absurd h (by simp [hasCC])
    | cons b t2 =>
      rw [hasCC_cons_cons, Bool.or_eq_true] at h
      rcases h with h | h
      · rw [Bool.and_eq_true] at h
        have ha : a = ':' := by simpa using h.1
        have hb : b = ':' := by simpa using h.2
        exact ⟨[], t2, by rw [ha, hb]; rfl⟩
      · obtain ⟨p, q, hpq⟩ := ih h
        exact ⟨a :: p, q, by rw [hpq]; rfl⟩

theorem hasCC2_decomp_of (l : List Char) :
    hasCC2 l = true → ∃ u v w, l = u ++ ':' :: ':' :: (v ++ ':' :: ':' :: w) := by
  induction l with
  | nil => intro h; exact absurd h (by simp [hasCC2])
  | cons a t ih =>
    intro h
    cases t with
    | nil => exact absurd h (by simp [hasCC2])
    | cons b t2 =>
      rw [hasCC2_cons_cons] at h
      by_cases hp : (a == ':' && b == ':') = true
      · rw [if_pos hp] at h
        rw [Bool.and_eq_true] at hp
        have ha : a = ':' := by simpa using hp.1
        have hb : b = ':' := by simpa using hp.2
        obtain ⟨p, q, hpq⟩ := hasCC_decomp_of t2 h
        exact ⟨[], p, q, by rw [ha, hb, hpq]; rfl⟩
      · rw [if_neg hp] at h
        obtain ⟨u, v, w, huvw⟩ := ih h
        exact ⟨a :: u, v, w, by rw [huvw]; rfl⟩

theorem starLoop_zero (p : Char → Bool) (bef rest : List Char)
    (k : List Char → List Char → Bool) (hk : k bef rest = true) :
    starLoop p bef rest k = true := by
  cases rest with
  | nil => rw [starLoop_nil]; exact hk
  | cons c cs =>
    rw [starLoop_cons, Bool.or_eq_true]
    exact Or.inl hk

theorem lit_split (s : List Char) :
    ∀ (bef rest : List Char) (k : List Char → List Char → Bool),
      matchR (litRx s) bef rest k = true →
      ∃ rest2, rest = s ++ rest2 ∧ k (s.reverse ++ bef) rest2 = true := by
  induction s with
  | nil =>
    intro bef rest k h
    exact ⟨rest, rfl, by simpa [litRx, matchR_eps] using h⟩
  | cons c cs ih =>
    intro bef rest k h
    rw [litRx, List.foldr_cons, matchR_seq] at h
    cases rest with
    | nil => rw [matchR_cls_nil] at h; exact absurd h (by simp)
    | cons d rest2 =>
      rw [matchR_cls_cons, Bool.and_eq_true] at h
      have hd : d = c := by simpa using h.1
      obtain ⟨rest3, he, hk⟩ := ih _ _ _ h.2
      subst hd
      refine ⟨rest3, ?_, ?_⟩
      · rw [List.cons_append, ← he]
      · simpa [List.append_assoc] using hk

theorem twoWild_sound (bef rest : List Char)
    (h : matchR twoWild bef rest (fun _ _ => true) = true) :
    ∃ u v w, rest = u ++ ':' :: ':' :: (v ++ ':' :: ':' :: w) := by
  rw [twoWild, matchR_seq, matchR_star] at h
  obtain ⟨n1, _, _, hk1⟩ := starLoop_split _ rest bef _ h
  have hk1b : matchR (.seq (litRx [':', ':'])
      (.seq (.star fun _ => true) (litRx [':', ':'])))
      ((rest.take n1).reverse ++ bef) (rest.drop n1) (fun _ _ => true) = true := hk1
  rw [matchR_seq] at hk1b
  obtain ⟨rest2, he2, hk2⟩ := lit_split [':', ':'] _ _ _ hk1b
  have hk2b : matchR (.seq (.star fun _ => true) (litRx [':', ':']))
      ([':', ':'].reverse ++ ((rest.take n1).reverse ++ bef)) rest2 (fun _ _ => true) = true := hk2
  rw [matchR_seq, matchR_star] at hk2b
  obtain ⟨n2, _, _, hk3⟩ := starLoop_split _ rest2 _ _ hk2b
  have hk3b : matchR (litRx [':', ':'])
      ((rest2.take n2).reverse ++ ([':', ':'].reverse ++ ((rest.take n1).reverse ++ bef)))
      (rest2.drop n2) (fun _ _ => true) = true := hk3
  obtain ⟨rest3, he3, _⟩ := lit_split [':', ':'] _ _ _ hk3b
  refine ⟨rest.take n1, rest2.take n2, rest3, ?_⟩
  have hr2 : rest2 = rest2.take n2 ++ ([':', ':'] ++ rest3) := by
    conv_lhs => rw [← List.take_append_drop n2 rest2]
    rw [he3]
  calc rest = rest.take n1 ++ rest.drop n1 := (List.take_append_drop n1 rest).symm
    _ = rest.take n1 ++ ([':', ':'] ++ rest2) := by rw [he2]
    _ = rest.take n1 ++ ([':', ':'] ++ (rest2.take n2 ++ ([':', ':'] ++ rest3))) := by
        rw [← hr2]
    _ = rest.take n1 ++ ':' :: ':' :: (rest2.take n2 ++ ':' :: ':' :: rest3) := rfl

theorem twoWild_eval (bef rest : List Char) :
    matchR twoWild bef rest (fun _ _ => true) = hasCC2 rest := by
  cases h : hasCC2 rest with
  | true =>
    obtain ⟨u, v, w, huvw⟩ := hasCC2_decomp_of rest h
    rw [huvw]
    exact twoWild_intro bef u v w
  | false =>
    cases hm : matchR twoWild bef rest (fun _ _ => true) with
    | false => rfl
    | true =>
      obtain ⟨u, v, w, huvw⟩ := twoWild_sound bef rest hm
      rw [huvw, hasCC2_of_decomp] at h
      exact absurd h (by simp)

/-- Hexadecimal characters are not colons. -/
theorem hex_ne_colon (c : Char) (h : isHexD c = true) : c ≠ ':' := by
  intro hc
  subst hc
  exact absurd h (by decide)

/-- Digits are not colons. -/
theorem dig_ne_colon (c : Char) (h : isDig c = true) : c ≠ ':' := by
  intro hc
  subst hc
  exact absurd h (by decide)

/-- A well-formed hexadecimal group of an IPv6 literal: 1-4 hex digits. -/
def hexGroupOk (g : List Char) : Bool :=
  !g.isEmpty && decide (g.length ≤ 4) && g.all isHexD

/-- Groups each followed by one colon: `g1:g2:...:gn:`. -/
def hexJoin : List (List Char) → List Char
  | [] => []
  | g :: gs => g ++ ':' :: hexJoin gs

/-- Groups separated by colons: `g1:g2:...:gn`. -/
def interJoin : List (List Char) → List Char
  | [] => []
  | [g] => g
  | g :: gs => g ++ ':' :: interJoin gs

/-- The canonical dotted-decimal rendering `a.b.c.d`. -/
def v4Chars (a b c d : Nat) : List Char :=
  (Nat.repr a).toList ++ '.' :: ((Nat.repr b).toList ++ '.' :: ((Nat.repr c).toList
    ++ '.' :: (Nat.repr d).toList))

theorem v4Chars_nocolon (a b c d : Nat) (ha : a ≤ 254) (hb : b ≤ 254) (hc : c ≤ 254)
    (hd : d ≤ 254) : ∀ x ∈ v4Chars a b c d, x ≠ ':' := by
  intro x hx
  rw [v4Chars] at hx
  simp only [List.mem_append, List.mem_cons] at hx
  rcases hx with h | h | h | h | h | h | h
  · exact dig_ne_colon x ((oct_repr_facts a ha).2.1 x h)
  · subst h; decide
  · exact dig_ne_colon x ((oct_repr_facts b hb).2.1 x h)
  · subst h; decide
  · exact dig_ne_colon x ((oct_repr_facts c hc).2.1 x h)
  · subst h; decide
  · exact dig_ne_colon x ((oct_repr_facts d hd).2.1 x h)

theorem interJoin_cons_ne (g : List Char) (gs : List (List Char)) (h : gs ≠ []) :
    interJoin (g :: gs) = g ++ ':' :: interJoin gs := by
  cases gs with
  | nil => exact absurd rfl h
  | cons g2 t => rfl

theorem interJoin_head (g : List Char) (gs : List (List Char)) :
    ∃ x, interJoin (g :: gs) = g ++ x := by
  cases gs with
  | nil => exact ⟨[], by rw [List.append_nil]; rfl⟩
  | cons g2 t => exact ⟨':' :: interJoin (g2 :: t), rfl⟩

theorem interJoin_colon :
    ∀ (gs : List (List Char)), gs ≠ [] → ∀ (x : List Char),
      interJoin gs ++ ':' :: x = hexJoin gs ++ x := by
  intro gs
  induction gs with
  | nil => intro h; exact absurd rfl h
  | cons g gs ih =>
    intro _ x
    cases gs with
    | nil =>
      show g ++ ':' :: x = (g ++ ':' :: hexJoin []) ++ x
      rw [List.append_assoc]
      rfl
    | cons g2 t =>
      rw [interJoin_cons_ne g (g2 :: t) (by simp)]
      rw [List.append_assoc, List.cons_append, ih (by simp) x]
      rw [show hexJoin (g :: g2 :: t) = g ++ ':' :: hexJoin (g2 :: t) from rfl]
      rw [List.append_assoc, List.cons_append]

theorem hasCC_hexJoin_aux :
    ∀ (gs : List (List Char)), (∀ g ∈ gs, g ≠ [] ∧ ∀ c ∈ g, c ≠ ':') →
      ∀ (tail : List Char), (∀ c ∈ tail, c ≠ ':') →
      hasCC (hexJoin gs ++ tail) = false ∧ hasCC (':' :: (hexJoin gs ++ tail)) = false := by
  intro gs
  induction gs with
  | nil =>
    intro _ tail ht
    constructor
    · rw [show hexJoin [] ++ tail = tail from rfl]
      exact hasCC_nocolon tail ht
    · rw [show hexJoin [] ++ tail = tail from rfl]
      cases tail with
      | nil => rfl
      | cons c t =>
        rw [hasCC_colon_cons c (ht c (by simp)) t]
        exact hasCC_nocolon (c :: t) ht
  | cons g gs ih =>
    intro hok tail ht
    obtain ⟨hgne, hgnc⟩ := hok g (by simp)
    have ihs := ih (fun g2 h2 => hok g2 (by simp [h2])) tail ht
    have hP : hasCC (hexJoin (g :: gs) ++ tail) = false := by
      rw [show hexJoin (g :: gs) ++ tail = g ++ (':' :: (hexJoin gs ++ tail)) from by
        simp [hexJoin]]
      rw [hasCC_skip_chunk g hgnc]
      exact ihs.2
    refine ⟨hP, ?_⟩
    cases g with
    | nil => exact absurd rfl hgne
    | cons c g2 =>
      have hc : c ≠ ':' := hgnc c (by simp)
      have he : hexJoin ((c :: g2) :: gs) ++ tail =
          c :: (g2 ++ ':' :: (hexJoin gs ++ tail)) := by
        simp [hexJoin]
      rw [he, hasCC_colon_cons c hc, ← he]
      exact hP

theorem hasCC2_imp : ∀ (l : List Char), hasCC2 l = true → hasCC l = true := by
  intro l
  induction l with
  | nil => intro h; exact absurd h (by simp [hasCC2])
  | cons a t ih =>
    intro h
    cases t with
    | nil => exact absurd h (by simp [hasCC2])
    | cons b t2 =>
      rw [hasCC2_cons_cons] at h
      rw [hasCC_cons_cons, Bool.or_eq_true]
      by_cases hp : (a == ':' && b == ':') = true
      · exact Or.inl hp
      · rw [if_neg hp] at h
        exact Or.inr (ih h)

theorem hasCC2_of_hasCC_false (l : List Char) (h : hasCC l = false) : hasCC2 l = false := by
  cases h2 : hasCC2 l with
  | false => rfl
  | true => rw [hasCC2_imp l h2] at h; exact absurd h (by simp)

theorem hasCC2_comp :
    ∀ (pre : List (List Char)), (∀ g ∈ pre, g ≠ [] ∧ ∀ c ∈ g, c ≠ ':') →
      ∀ (z : List Char), hasCC2 (interJoin pre ++ ':' :: ':' :: z) = hasCC z := by
  intro pre
  induction pre with
  | nil =>
    intro _ z
    rw [show interJoin [] ++ ':' :: ':' :: z = ':' :: ':' :: z from rfl]
    rw [hasCC2_cons_cons]
    simp
  | cons g pre ih =>
    intro hok z
    obtain ⟨hgne, hgnc⟩ := hok g (by simp)
    cases pre with
    | nil =>
      rw [show interJoin [g] ++ ':' :: ':' :: z = g ++ ':' :: ':' :: z from rfl]
      rw [hasCC2_skip_chunk g hgnc, hasCC2_cons_cons]
      simp
    | cons g2 pre2 =>
      obtain ⟨hg2ne, hg2nc⟩ := hok g2 (by simp)
      obtain ⟨x, hx⟩ := interJoin_head g2 pre2
      cases g2 with
      | nil => exact absurd rfl hg2ne
      | cons c g2t =>
        have hc : c ≠ ':' := hg2nc c (by simp)
        have he : interJoin (g :: (c :: g2t) :: pre2) ++ ':' :: ':' :: z =
            g ++ ':' :: (interJoin ((c :: g2t) :: pre2) ++ ':' :: ':' :: z) := by
          rw [interJoin_cons_ne g ((c :: g2t) :: pre2) (by simp)]
          simp
        rw [he, hasCC2_skip_chunk g hgnc]
        have he2 : interJoin ((c :: g2t) :: pre2) ++ ':' :: ':' :: z =
            c :: (g2t ++ x ++ ':' :: ':' :: z) := by
          rw [hx]
          simp
        rw [he2, hasCC2_colon_cons c hc, ← he2]
        exact ih (fun g3 h3 => hok g3 (by simp [h3])) z

theorem befChk_cc_head_ne (c : Char) (hc : c ≠ ':') (r : List Char) :
    befChk [':', ':'] (c :: r) = false := by
  have h1 : befChk [':', ':'] (c :: r) = decide (c :: r.take 1 = [':', ':']) := rfl
  rw [h1, decide_eq_false_iff_not]
  intro h
  exact hc ((List.cons.injEq _ _ _ _).mp h).1

theorem befChk_cc_second_ne (c : Char) (hc : c ≠ ':') (r : List Char) :
    befChk [':', ':'] (':' :: c :: r) = false := by
  have h1 : befChk [':', ':'] (':' :: c :: r) =
      decide ((':' :: c :: [] : List Char) = [':', ':']) := rfl
  rw [h1, decide_eq_false_iff_not]
  intro h
  exact hc ((List.cons.injEq _ _ _ _).mp ((List.cons.injEq _ _ _ _).mp h).2).1

theorem befChk_cc_cc (r : List Char) : befChk [':', ':'] (':' :: ':' :: r) = true := by
  have h1 : befChk [':', ':'] (':' :: ':' :: r) =
      decide ((':' :: ':' :: [] : List Char) = [':', ':']) := rfl
  rw [h1]
  simp

theorem befChk_cc_single : befChk [':', ':'] [':'] = false := rfl

theorem hexJoin_rev :
    ∀ (gs : List (List Char)), gs ≠ [] → (∀ g ∈ gs, g ≠ [] ∧ ∀ c ∈ g, c ≠ ':') →
      ∃ c r, c ≠ ':' ∧ (hexJoin gs).reverse = ':' :: c :: r := by
  intro gs
  induction gs with
  | nil => intro h; exact absurd rfl h
  | cons g gs ih =>
    intro _ hok
    obtain ⟨hne, hnc⟩ := hok g (by simp)
    cases gs with
    | nil =>
      cases hrev : g.reverse with
      | nil => exact absurd (by simpa using hrev) hne
      | cons c rr =>
        refine ⟨c, rr, ?_, ?_⟩
        · exact hnc c (by
            have hm : c ∈ g.reverse := by rw [hrev]; simp
            simpa using hm)
        · simp [hexJoin, hrev]
    | cons g2 gs2 =>
      obtain ⟨c, r, hcn, hr⟩ := ih (by simp) (fun g3 h3 => hok g3 (by simp [h3]))
      refine ⟨c, r ++ ':' :: g.reverse, hcn, ?_⟩
      have hr2 : (hexJoin gs2).reverse ++ ':' :: g2.reverse = ':' :: c :: r := by
        simpa [hexJoin] using hr
      calc (hexJoin (g :: g2 :: gs2)).reverse
          = ((hexJoin gs2).reverse ++ ':' :: g2.reverse) ++ ':' :: g.reverse := by
            simp [hexJoin]
        _ = (':' :: c :: r) ++ ':' :: g.reverse := by rw [hr2]
        _ = ':' :: c :: (r ++ ':' :: g.reverse) := rfl

theorem powUnits_intro :
    ∀ (gs : List (List Char)),
      (∀ g ∈ gs, g ≠ [] ∧ g.length ≤ 4 ∧ ∀ c ∈ g, isHexD c = true) →
      ∀ (bef rest : List Char) (k : List Char → List Char → Bool),
        k ((hexJoin gs).reverse ++ bef) rest = true →
        matchR (powR groupUnit gs.length) bef (hexJoin gs ++ rest) k = true := by
  intro gs
  induction gs with
  | nil =>
    intro _ bef rest k hk
    show k bef (hexJoin [] ++ rest) = true
    simpa using hk
  | cons g gs ih =>
    intro hok bef rest k hk
    obtain ⟨hne, hlen, hhex⟩ := hok g (by simp)
    cases hrev : g.reverse with
    | nil => exact absurd (by simpa using hrev) hne
    | cons c rr =>
    have hcc : c ≠ ':' := hex_ne_colon c (hhex c (by
      have hm : c ∈ g.reverse := by rw [hrev]; simp
      simpa using hm))
    rw [show hexJoin (g :: gs) ++ rest = g ++ (':' :: (hexJoin gs ++ rest)) from by
      simp [hexJoin]]
    show matchR (.seq groupUnit (powR groupUnit gs.length)) bef
      (g ++ ':' :: (hexJoin gs ++ rest)) k = true
    rw [matchR_seq]
    show matchR (.seq (repUpTo isHexD 4) colonRule) bef (g ++ ':' :: (hexJoin gs ++ rest))
      (fun b1 r1 => matchR (powR groupUnit gs.length) b1 r1 k) = true
    rw [matchR_seq]
    have h2 : matchR colonRule (g.reverse ++ bef) (':' :: (hexJoin gs ++ rest))
        (fun b1 r1 => matchR (powR groupUnit gs.length) b1 r1 k) = true := by
      rw [show colonRule = .alt (.lkb true [':', ':'])
        (.seq (.lkb false [':', ':']) (.cls (chEq ':'))) from rfl, matchR_alt, Bool.or_eq_true]
      right
      rw [matchR_seq, matchR_lkb]
      rw [hrev, List.cons_append, befChk_cc_head_ne c hcc]
      show matchR (.cls (chEq ':')) (c :: (rr ++ bef)) (':' :: (hexJoin gs ++ rest))
        (fun b1 r1 => matchR (powR groupUnit gs.length) b1 r1 k) = true
      rw [matchR_cls_cons]
      show matchR (powR groupUnit gs.length) (':' :: c :: (rr ++ bef))
        (hexJoin gs ++ rest) k = true
      apply ih (fun g2 h2 => hok g2 (by simp [h2])) (':' :: c :: (rr ++ bef)) rest k
      have he : (hexJoin gs).reverse ++ (':' :: c :: (rr ++ bef)) =
          (hexJoin (g :: gs)).reverse ++ bef := by
        rw [show (':' :: c :: (rr ++ bef)) = ':' :: (g.reverse ++ bef) from by rw [hrev]; rfl]
        simp [hexJoin]
      rw [he]
      exact hk
    exact repUpTo_intro isHexD 4 g hlen hhex bef (':' :: (hexJoin gs ++ rest)) _ h2

theorem padUnits_intro :
    ∀ (pad : Nat) (bef rest : List Char) (k : List Char → List Char → Bool),
      befChk [':', ':'] bef = true → k bef rest = true →
      matchR (powR groupUnit pad) bef rest k = true := by
  intro pad
  induction pad with
  | zero => intro bef rest k _ hk; exact hk
  | succ n ih =>
    intro bef rest k hcc hk
    show matchR (.seq groupUnit (powR groupUnit n)) bef rest k = true
    rw [matchR_seq]
    have h2 : matchR colonRule bef rest
        (fun b1 r1 => matchR (powR groupUnit n) b1 r1 k) = true := by
      rw [show colonRule = .alt (.lkb true [':', ':'])
        (.seq (.lkb false [':', ':']) (.cls (chEq ':'))) from rfl, matchR_alt, Bool.or_eq_true]
      left
      rw [matchR_lkb, hcc]
      show matchR (powR groupUnit n) bef rest k = true
      exact ih bef rest k hcc hk
    exact repUpTo_intro isHexD 4 [] (by simp) (by simp) bef rest _ h2

theorem ccUnits_intro :
    ∀ (post : List (List Char)),
      (∀ g ∈ post, g ≠ [] ∧ g.length ≤ 4 ∧ ∀ c ∈ g, isHexD c = true) →
      ∀ (pad : Nat) (bef tail : List Char) (k : List Char → List Char → Bool),
        befChk [':', ':'] bef = false →
        (∃ r, bef = ':' :: r) →
        k ((hexJoin post).reverse ++ (':' :: bef)) tail = true →
        matchR (powR groupUnit (pad + post.length + 1)) bef (':' :: (hexJoin post ++ tail)) k
          = true := by
  intro post hok pad bef tail k hno hr0 hk
  obtain ⟨r0, hr0⟩ := hr0
  show matchR (.seq groupUnit (powR groupUnit (pad + post.length))) bef
    (':' :: (hexJoin post ++ tail)) k = true
  rw [matchR_seq]
  have h2 : matchR colonRule bef (':' :: (hexJoin post ++ tail))
      (fun b1 r1 => matchR (powR groupUnit (pad + post.length)) b1 r1 k) = true := by
    rw [show colonRule = .alt (.lkb true [':', ':'])
      (.seq (.lkb false [':', ':']) (.cls (chEq ':'))) from rfl, matchR_alt, Bool.or_eq_true]
    right
    rw [matchR_seq, matchR_lkb, hno]
    show matchR (.cls (chEq ':')) bef (':' :: (hexJoin post ++ tail))
      (fun b1 r1 => matchR (powR groupUnit (pad + post.length)) b1 r1 k) = true
    rw [matchR_cls_cons]
    show matchR (powR groupUnit (pad + post.length)) (':' :: bef)
      (hexJoin post ++ tail) k = true
    rw [powR_add]
    apply padUnits_intro pad (':' :: bef) (hexJoin post ++ tail) _
      (by rw [hr0]; exact befChk_cc_cc r0)
    show matchR (powR groupUnit post.length) (':' :: bef) (hexJoin post ++ tail) k = true
    exact powUnits_intro post hok (':' :: bef) tail k hk
  exact repUpTo_intro isHexD 4 [] (by simp) (by simp) bef (':' :: (hexJoin post ++ tail)) _ h2

theorem plain_powR (r : Rx) (hr : Plain r) : ∀ n, Plain (powR r n) := by
  intro n
  induction n with
  | zero => exact Plain.eps
  | succ m ih => exact Plain.seq r (powR r m) hr ih

theorem plain_v4Tail : Plain v4Tail :=
  Plain.seq _ _ plain_octRx (plain_powR _ (Plain.seq _ _ (Plain.cls _) plain_octRx) 3)

theorem dotOcts_intro :
    ∀ (ns : List Nat), (∀ n ∈ ns, n ≤ 254) →
      ∀ (bef tail : List Char) (k : List Char → List Char → Bool),
        (∀ b2, k b2 tail = true) →
        matchR (powR (.seq (.cls (chEq '.')) octRx) ns.length) bef
          (ns.foldr (fun n acc => '.' :: ((Nat.repr n).toList ++ acc)) tail) k = true := by
  intro ns
  induction ns with
  | nil =>
    intro _ bef tail k hk
    show k bef (List.foldr _ tail []) = true
    exact hk bef
  | cons n ns ih =>
    intro hle bef tail k hk
    show matchR (.seq (.seq (.cls (chEq '.')) octRx)
      (powR (.seq (.cls (chEq '.')) octRx) ns.length)) bef
      ('.' :: ((Nat.repr n).toList ++
        (ns.foldr (fun n acc => '.' :: ((Nat.repr n).toList ++ acc)) tail))) k = true
    rw [matchR_seq, matchR_seq, matchR_cls_cons]
    show matchR octRx ('.' :: bef)
      ((Nat.repr n).toList ++ (ns.foldr (fun n acc => '.' :: ((Nat.repr n).toList ++ acc)) tail))
      (fun b1 r1 => matchR (powR (.seq (.cls (chEq '.')) octRx) ns.length) b1 r1 k) = true
    apply plain_intro octRx plain_octRx (Nat.repr n).toList
      (oct_repr_facts n (hle n (by simp))).1 ('.' :: bef) _ _
    show matchR (powR (.seq (.cls (chEq '.')) octRx) ns.length)
      ((Nat.repr n).toList.reverse ++ ('.' :: bef))
      (ns.foldr (fun n acc => '.' :: ((Nat.repr n).toList ++ acc)) tail) k = true
    exact ih (fun m hm => hle m (by simp [hm])) _ tail k hk

theorem v4_consumes (a b c d : Nat) (ha : a ≤ 254) (hb : b ≤ 254) (hc : c ≤ 254)
    (hd : d ≤ 254) : matchConsumes v4Tail (v4Chars a b c d) = true := by
  have hv4 : v4Chars a b c d = (Nat.repr a).toList ++
      ([b, c, d].foldr (fun n acc => '.' :: ((Nat.repr n).toList ++ acc)) []) := by
    rw [v4Chars]
    simp
  show matchR (.seq octRx (powR (.seq (.cls (chEq '.')) octRx) 3)) []
    (v4Chars a b c d) emptyK = true
  rw [matchR_seq, hv4]
  have h2 : matchR (powR (.seq (.cls (chEq '.')) octRx) 3)
      ((Nat.repr a).toList.reverse ++ [])
      ([b, c, d].foldr (fun n acc => '.' :: ((Nat.repr n).toList ++ acc)) []) emptyK = true := by
    apply dotOcts_intro [b, c, d] ?_ ((Nat.repr a).toList.reverse ++ []) [] emptyK
      (fun b2 => rfl)
    intro m hm
    simp only [List.mem_cons, List.not_mem_nil, or_false] at hm
    rcases hm with h | h | h
    · exact h ▸ hb
    · exact h ▸ hc
    · exact h ▸ hd
  exact plain_intro octRx plain_octRx (Nat.repr a).toList (oct_repr_facts a ha).1 [] _ _ h2

theorem tail_finish (a b c d : Nat) (ha : a ≤ 254) (hb : b ≤ 254) (hc : c ≤ 254)
    (hd : d ≤ 254) (bef : List Char) :
    matchR (.seq (.alt v6TailHex v4Tail) (.star isWs)) bef (v4Chars a b c d) emptyK = true := by
  rw [matchR_seq, matchR_alt, Bool.or_eq_true]
  right
  have h2 : (fun b1 r1 => matchR (.star isWs) b1 r1 emptyK)
      ((v4Chars a b c d).reverse ++ bef) [] = true := by
    show starLoop isWs ((v4Chars a b c d).reverse ++ bef) [] emptyK = true
    rw [starLoop_nil]
    rfl
  show matchR v4Tail bef (v4Chars a b c d)
    (fun bef1 rest1 => matchR (.star isWs) bef1 rest1 emptyK) = true
  have h3 := plain_intro v4Tail plain_v4Tail (v4Chars a b c d)
    (v4_consumes a b c d ha hb hc hd) bef []
    (fun b1 r1 => matchR (.star isWs) b1 r1 emptyK) h2
  rw [List.append_nil] at h3
  exact h3

theorem hexGroupOk_props (gs : List (List Char)) (hok : ∀ g ∈ gs, hexGroupOk g = true) :
    ∀ g ∈ gs, g ≠ [] ∧ g.length ≤ 4 ∧ ∀ c ∈ g, isHexD c = true := by
  intro g hg
  have h1 := hok g hg
  rw [hexGroupOk, Bool.and_eq_true, Bool.and_eq_true] at h1
  refine ⟨?_, of_decide_eq_true h1.1.2, fun c hc => List.all_eq_true.mp h1.2 c hc⟩
  intro hnil
  rw [hnil] at h1
  simp at h1

theorem hexGroupOk_nocolon (gs : List (List Char)) (hok : ∀ g ∈ gs, hexGroupOk g = true) :
    ∀ g ∈ gs, g ≠ [] ∧ ∀ c ∈ g, c ≠ ':' := by
  intro g hg
  obtain ⟨h1, _, h3⟩ := hexGroupOk_props gs hok g hg
  exact ⟨h1, fun c hc => hex_ne_colon c (h3 c hc)⟩

theorem accept_full (gs : List (List Char)) (a b c d : Nat)
    (hlen : gs.length = 6)
    (hok : ∀ g ∈ gs, hexGroupOk g = true)
    (ha : a ≤ 254) (hb : b ≤ 254) (hc : c ≤ 254) (hd : d ≤ 254) :
    matchR ipv6Rx [] (hexJoin gs ++ v4Chars a b c d) emptyK = true := by
  have hok' := hexGroupOk_props gs hok
  have hnc := hexGroupOk_nocolon gs hok
  have hcc2 : hasCC2 (hexJoin gs ++ v4Chars a b c d) = false := by
    apply hasCC2_of_hasCC_false
    exact (hasCC_hexJoin_aux gs hnc (v4Chars a b c d)
      (v4Chars_nocolon a b c d ha hb hc hd)).1
  show starLoop isWs [] (hexJoin gs ++ v4Chars a b c d)
    (fun b1 r1 => matchR (.seq (.lka false twoWild) (.seq startRule (.seq (powR groupUnit 6)
      (.seq (.alt v6TailHex v4Tail) (.star isWs))))) b1 r1 emptyK) = true
  apply starLoop_zero
  show matchR (.seq (.lka false twoWild) (.seq startRule (.seq (powR groupUnit 6)
    (.seq (.alt v6TailHex v4Tail) (.star isWs))))) [] (hexJoin gs ++ v4Chars a b c d)
    emptyK = true
  rw [matchR_seq, matchR_lka, twoWild_eval, hcc2]
  show matchR (.seq startRule (.seq (powR groupUnit 6) (.seq (.alt v6TailHex v4Tail)
    (.star isWs)))) [] (hexJoin gs ++ v4Chars a b c d) emptyK = true
  obtain ⟨g1, gs', hgs⟩ : ∃ g1 gs', gs = g1 :: gs' := by
    cases gs with
    | nil => simp at hlen
    | cons x xs => exact ⟨x, xs, rfl⟩
  obtain ⟨hg1ne, _, hg1hex⟩ := hok' g1 (by rw [hgs]; simp)
  obtain ⟨c1, g1t, hg1⟩ : ∃ c1 g1t, g1 = c1 :: g1t := by
    cases g1 with
    | nil => exact absurd rfl hg1ne
    | cons x xs => exact ⟨x, xs, rfl⟩
  have hc1 : (c1 == ':') = false := by
    have hne := hex_ne_colon c1 (hg1hex c1 (by rw [hg1]; simp))
    simpa using hne
  have hL : hexJoin gs ++ v4Chars a b c d =
      c1 :: (g1t ++ ':' :: (hexJoin gs' ++ v4Chars a b c d)) := by
    rw [hgs, hg1]
    simp [hexJoin]
  rw [matchR_seq]
  rw [show startRule = .alt (.lka false (.cls (chEq ':')))
    (.seq (.cls (chEq ':')) (.lka true (.cls (chEq ':')))) from rfl, matchR_alt,
    Bool.or_eq_true]
  left
  rw [matchR_lka]
  have hin : matchR (.cls (chEq ':')) [] (hexJoin gs ++ v4Chars a b c d)
      (fun _ _ => true) = false := by
    rw [hL, matchR_cls_cons]
    rw [show chEq ':' c1 = (c1 == ':') from rfl, hc1]
    rfl
  rw [hin]
  show matchR (.seq (powR groupUnit 6) (.seq (.alt v6TailHex v4Tail) (.star isWs))) []
    (hexJoin gs ++ v4Chars a b c d) emptyK = true
  rw [matchR_seq, ← hlen]
  apply powUnits_intro gs hok' [] (v4Chars a b c d)
  show matchR (.seq (.alt v6TailHex v4Tail) (.star isWs)) ((hexJoin gs).reverse ++ [])
    (v4Chars a b c d) emptyK = true
  exact tail_finish a b c d ha hb hc hd _

theorem accept_comp (pre post : List (List Char)) (a b c d : Nat)
    (hok1 : ∀ g ∈ pre, hexGroupOk g = true)
    (hok2 : ∀ g ∈ post, hexGroupOk g = true)
    (hlen : pre.length + post.length ≤ 5)
    (ha : a ≤ 254) (hb : b ≤ 254) (hc : c ≤ 254) (hd : d ≤ 254) :
    matchR ipv6Rx []
      (interJoin pre ++ ':' :: ':' :: (hexJoin post ++ v4Chars a b c d)) emptyK = true := by
  have hok1' := hexGroupOk_props pre hok1
  have hok2' := hexGroupOk_props post hok2
  have hnc1 := hexGroupOk_nocolon pre hok1
  have hnc2 := hexGroupOk_nocolon post hok2
  have hcc2 : hasCC2 (interJoin pre ++ ':' :: ':' :: (hexJoin post ++ v4Chars a b c d))
      = false := by
    rw [hasCC2_comp pre hnc1]
    exact (hasCC_hexJoin_aux post hnc2 (v4Chars a b c d)
      (v4Chars_nocolon a b c d ha hb hc hd)).1
  show starLoop isWs [] (interJoin pre ++ ':' :: ':' :: (hexJoin post ++ v4Chars a b c d))
    (fun b1 r1 => matchR (.seq (.lka false twoWild) (.seq startRule (.seq (powR groupUnit 6)
      (.seq (.alt v6TailHex v4Tail) (.star isWs))))) b1 r1 emptyK) = true
  apply starLoop_zero
  show matchR (.seq (.lka false twoWild) (.seq startRule (.seq (powR groupUnit 6)
    (.seq (.alt v6TailHex v4Tail) (.star isWs))))) []
    (interJoin pre ++ ':' :: ':' :: (hexJoin post ++ v4Chars a b c d)) emptyK = true
  rw [matchR_seq, matchR_lka, twoWild_eval, hcc2]
  show matchR (.seq startRule (.seq (powR groupUnit 6) (.seq (.alt v6TailHex v4Tail)
    (.star isWs)))) [] (interJoin pre ++ ':' :: ':' :: (hexJoin post ++ v4Chars a b c d))
    emptyK = true
  cases pre with
  | nil =>
    rw [show interJoin [] ++ ':' :: ':' :: (hexJoin post ++ v4Chars a b c d) =
      ':' :: ':' :: (hexJoin post ++ v4Chars a b c d) from rfl]
    rw [matchR_seq]
    rw [show startRule = .alt (.lka false (.cls (chEq ':')))
      (.seq (.cls (chEq ':')) (.lka true (.cls (chEq ':')))) from rfl, matchR_alt,
      Bool.or_eq_true]
    right
    rw [matchR_seq, matchR_cls_cons]
    show matchR (.lka true (.cls (chEq ':'))) [':']
      (':' :: (hexJoin post ++ v4Chars a b c d))
      (fun b1 r1 => matchR (.seq (powR groupUnit 6) (.seq (.alt v6TailHex v4Tail)
        (.star isWs))) b1 r1 emptyK) = true
    rw [matchR_lka, matchR_cls_cons]
    show matchR (.seq (powR groupUnit 6) (.seq (.alt v6TailHex v4Tail) (.star isWs))) [':']
      (':' :: (hexJoin post ++ v4Chars a b c d)) emptyK = true
    rw [matchR_seq]
    have h6 : (6 : Nat) = (5 - post.length) + post.length + 1 := by
      rw [List.length_nil, Nat.zero_add] at hlen
      omega
    rw [h6]
    apply ccUnits_intro post hok2' (5 - post.length) [':'] (v4Chars a b c d) _
      befChk_cc_single ⟨[], rfl⟩
    show matchR (.seq (.alt v6TailHex v4Tail) (.star isWs))
      ((hexJoin post).reverse ++ (':' :: [':'])) (v4Chars a b c d) emptyK = true
    exact tail_finish a b c d ha hb hc hd _
  | cons g pre2 =>
    obtain ⟨hg1ne, _, hg1hex⟩ := hok1' g (by simp)
    obtain ⟨c1, g1t, hg1⟩ : ∃ c1 g1t, g = c1 :: g1t := by
      cases g with
      | nil => exact absurd rfl hg1ne
      | cons x xs => exact ⟨x, xs, rfl⟩
    have hc1 : (c1 == ':') = false := by
      have hne := hex_ne_colon c1 (hg1hex c1 (by rw [hg1]; simp))
      simpa using hne
    obtain ⟨x, hx⟩ := interJoin_head g pre2
    have hL : interJoin (g :: pre2) ++ ':' :: ':' :: (hexJoin post ++ v4Chars a b c d) =
        c1 :: (g1t ++ x ++ ':' :: ':' :: (hexJoin post ++ v4Chars a b c d)) := by
      rw [hx, hg1]
      simp
    rw [matchR_seq]
    rw [show startRule = .alt (.lka false (.cls (chEq ':')))
      (.seq (.cls (chEq ':')) (.lka true (.cls (chEq ':')))) from rfl, matchR_alt,
      Bool.or_eq_true]
    left
    rw [matchR_lka]
    have hin : matchR (.cls (chEq ':')) []
        (interJoin (g :: pre2) ++ ':' :: ':' :: (hexJoin post ++ v4Chars a b c d))
        (fun _ _ => true) = false := by
      rw [hL, matchR_cls_cons]
      rw [show chEq ':' c1 = (c1 == ':') from rfl, hc1]
      rfl
    rw [hin]
    show matchR (.seq (powR groupUnit 6) (.seq (.alt v6TailHex v4Tail) (.star isWs))) []
      (interJoin (g :: pre2) ++ ':' :: ':' :: (hexJoin post ++ v4Chars a b c d))
      emptyK = true
    rw [interJoin_colon (g :: pre2) (by simp) (':' :: (hexJoin post ++ v4Chars a b c d))]
    rw [matchR_seq]
    have h6 : (6 : Nat) = (g :: pre2).length +
        ((5 - (g :: pre2).length - post.length) + post.length + 1) := by
      have hlen2 : (g :: pre2).length + post.length ≤ 5 := hlen
      omega
    rw [h6, powR_add]
    apply powUnits_intro (g :: pre2) hok1' [] (':' :: (hexJoin post ++ v4Chars a b c d))
    obtain ⟨c2, r2, hc2, hrev⟩ := hexJoin_rev (g :: pre2) (by simp)
      (hexGroupOk_nocolon (g :: pre2) hok1)
    show matchR (powR groupUnit ((5 - (g :: pre2).length - post.length) + post.length + 1))
      ((hexJoin (g :: pre2)).reverse ++ []) (':' :: (hexJoin post ++ v4Chars a b c d))
      (fun b1 r1 => matchR (.seq (.alt v6TailHex v4Tail) (.star isWs)) b1 r1 emptyK) = true
    apply ccUnits_intro post hok2' (5 - (g :: pre2).length - post.length)
      ((hexJoin (g :: pre2)).reverse ++ []) (v4Chars a b c d) _
      (by rw [hrev, List.cons_append, List.cons_append]
          exact befChk_cc_second_ne c2 hc2 (r2 ++ []))
      ⟨c2 :: (r2 ++ []), by rw [hrev, List.cons_append, List.cons_append]⟩
    show matchR (.seq (.alt v6TailHex v4Tail) (.star isWs))
      ((hexJoin post).reverse ++ (':' :: ((hexJoin (g :: pre2)).reverse ++ [])))
      (v4Chars a b c d) emptyK = true
    exact tail_finish a b c d ha hb hc hd _

/-- C8 counterexample: the string "::255.255.255.255" is exactly the compressed
IPv6 form with an embedded dotted-decimal IPv4 tail whose four octets are 255,
each within the claimed range 0-255, yet `is_valid_ip` rejects it (the tail
octet pattern of lines 173-175 tops out at `25[0-4]`, so 255 never matches). -/
theorem c8_counterexample :
    ("::255.255.255.255".toList =
      interJoin [] ++ ':' :: ':' :: (hexJoin [] ++ v4Chars 255 255 255 255)) ∧
    is_valid_ip "::255.255.255.255" = false := by
  constructor
  · decide
  · decide

/-- C8 (amended): `is_valid_ip` accepts every syntactically valid IPv6 literal
with an embedded dotted-decimal IPv4 tail whose octets lie in 0-254 (not 0-255
as claimed) and are written in canonical decimal: both the full form of six
1-4-hex-digit groups `g1:...:g6:a.b.c.d` and the compressed form
`pre::post:a.b.c.d` with at most five groups around the double colon; and it
rejects every string containing two disjoint "::" occurrences. -/
theorem c8_amended_theorem :
    (∀ (s : String) (gs : List (List Char)) (a b c d : Nat),
        gs.length = 6 → (∀ g ∈ gs, hexGroupOk g = true) →
        a ≤ 254 → b ≤ 254 → c ≤ 254 → d ≤ 254 →
        s.toList = hexJoin gs ++ v4Chars a b c d →
        is_valid_ip s = true) ∧
    (∀ (s : String) (pre post : List (List Char)) (a b c d : Nat),
        (∀ g ∈ pre, hexGroupOk g = true) → (∀ g ∈ post, hexGroupOk g = true) →
        pre.length + post.length ≤ 5 →
        a ≤ 254 → b ≤ 254 → c ≤ 254 → d ≤ 254 →
        s.toList = interJoin pre ++ ':' :: ':' :: (hexJoin post ++ v4Chars a b c d) →
        is_valid_ip s = true) ∧
    (∀ (s : String) (u v w : List Char),
        s.toList = u ++ ':' :: ':' :: (v ++ ':' :: ':' :: w) →
        is_valid_ip s = false) := by
  refine ⟨?_, ?_, ?_⟩
  · intro s gs a b c d hlen hok ha hb hc hd hs
    rw [is_valid_ip, Bool.or_eq_true]
    right
    rw [is_valid_ipv6, hs]
    exact accept_full gs a b c d hlen hok ha hb hc hd
  · intro s pre post a b c d hok1 hok2 hlen ha hb hc hd hs
    rw [is_valid_ip, Bool.or_eq_true]
    right
    rw [is_valid_ipv6, hs]
    exact accept_comp pre post a b c d hok1 hok2 hlen ha hb hc hd
  · intro s u v w hs
    rw [is_valid_ip]
    have h4 : is_valid_ipv4 s = false := by
      cases h : is_valid_ipv4 s with
      | false => rfl
      | true =>
        have hmem := ipv4_no_colon s h ':' (by rw [hs]; simp)
        exact absurd rfl hmem
    have h6 : is_valid_ipv6 s = false := by
      rw [is_valid_ipv6]
      exact ipv6_two_wild_false s.toList u v w hs
    rw [h4, h6]
    rfl

/-- Witness for C8: the full form "1:2:3:4:5:6:7.8.9.10" and the compressed
form "::254.1.2.3" are accepted, and "1::2::3" (two disjoint "::") is
rejected, all by instantiating the amended theorem. -/
theorem c8_witness :
    is_valid_ip "1:2:3:4:5:6:7.8.9.10" = true ∧
    is_valid_ip "::254.1.2.3" = true ∧
    is_valid_ip "1::2::3" = false := by
  refine ⟨?_, ?_, ?_⟩
  · exact c8_amended_theorem.1 "1:2:3:4:5:6:7.8.9.10"
      [['1'], ['2'], ['3'], ['4'], ['5'], ['6']] 7 8 9 10
      (by decide) (by decide) (by decide) (by decide) (by decide) (by decide) (by decide)
  · exact c8_amended_theorem.2.1 "::254.1.2.3" [] [] 254 1 2 3
      (by decide) (by decide) (by decide) (by decide) (by decide) (by decide) (by decide)
      (by decide)
  · exact c8_amended_theorem.2.2 "1::2::3" ['1'] ['2'] ['3'] (by decide)

theorem ws_ne_colon (c : Char) (h : isWs c = true) : c ≠ ':' := by
  intro hc
  subst hc
  exact absurd h (by decide)

theorem take_append_split : ∀ (l1 l2 : List Char) (n : Nat),
    (l1 ++ l2).take n = l1.take n ++ l2.take (n - l1.length) := by
  intro l1
  induction l1 with
  | nil => intro l2 n; simp
  | cons a t ih =>
    intro l2 n
    cases n with
    | zero => simp
    | succ m => simp [List.take_succ_cons, ih, Nat.succ_sub_succ]

theorem befChk_colon_ext (s bef ext : List Char) (hcol : ∀ c ∈ s, c = ':')
    (hext : ∀ c ∈ ext, isWs c = true) :
    befChk s (bef ++ ext) = befChk s bef := by
  by_cases hle : s.length ≤ bef.length
  · rw [befChk, befChk, take_append_split,
      Nat.sub_eq_zero_of_le hle, List.take_zero, List.append_nil]
  · push_neg at hle
    have h1 : befChk s bef = false := by
      rw [befChk, decide_eq_false_iff_not]
      intro h
      have hlen := congrArg List.length h
      rw [List.length_take, List.length_reverse] at hlen
      have hmin : min s.length bef.length ≤ bef.length := Nat.min_le_right _ _
      omega
    rw [h1, befChk, decide_eq_false_iff_not]
    intro h
    cases hext2 : ext with
    | nil =>
      subst hext2
      rw [List.append_nil] at h
      have hlen := congrArg List.length h
      rw [List.length_take, List.length_reverse] at hlen
      have hmin : min s.length bef.length ≤ bef.length := Nat.min_le_right _ _
      omega
    | cons e t =>
      obtain ⟨m, hm⟩ : ∃ m, s.length - bef.length = m + 1 :=
        ⟨s.length - bef.length - 1, by omega⟩
      have he : e ∈ (bef ++ ext).take s.length := by
        rw [take_append_split]
        apply List.mem_append_right
        rw [hext2, hm, List.take_succ_cons]
        exact List.mem_cons_self e _
      rw [h] at he
      have he2 : e ∈ s := List.mem_reverse.mp he
      have he3 : e = ':' := hcol e he2
      have hws : isWs e = true := hext e (by rw [hext2]; simp)
      rw [he3] at hws
      exact absurd hws (by decide)

/-- Patterns whose acceptance survives extending the already-consumed text at
its far end and the remaining text at its end, both by whitespace: every
lookbehind string is a colon run and the only lookaheads are the two occurring
in the IPv6 pattern. -/
inductive Stable : Rx → Prop
  | eps : Stable .eps
  | cls (p : Char → Bool) : Stable (.cls p)
  | seq (a b : Rx) : Stable a → Stable b → Stable (.seq a b)
  | alt (a b : Rx) : Stable a → Stable b → Stable (.alt a b)
  | star (p : Char → Bool) : Stable (.star p)
  | lkb (pos : Bool) (s : List Char) : (∀ c ∈ s, c = ':') → Stable (.lkb pos s)
  | lkaCls (pos : Bool) : Stable (.lka pos (.cls (chEq ':')))
  | lkaTW : Stable (.lka false twoWild)

theorem stable_of_plain (r : Rx) (hr : Plain r) : Stable r := by
  induction hr with
  | eps => exact Stable.eps
  | cls p => exact Stable.cls p
  | seq a b _ _ iha ihb => exact Stable.seq a b iha ihb
  | alt a b _ _ iha ihb => exact Stable.alt a b iha ihb
  | star p => exact Stable.star p

theorem ext_sim (ws1r ws2 : List Char) (hws1 : ∀ c ∈ ws1r, isWs c = true)
    (hws2 : ∀ c ∈ ws2, isWs c = true) :
    ∀ (r : Rx), Stable r →
      ∀ (bef rest : List Char) (k k' : List Char → List Char → Bool),
        (∀ b2 r2, k b2 r2 = true → k' (b2 ++ ws1r) (r2 ++ ws2) = true) →
        matchR r bef rest k = true → matchR r (bef ++ ws1r) (rest ++ ws2) k' = true := by
  intro r hr
  induction hr with
  | eps =>
    intro bef rest k k' tr h
    exact tr bef rest (by simpa [matchR_eps] using h)
  | cls p =>
    intro bef rest k k' tr h
    cases rest with
    | nil => rw [matchR_cls_nil] at h; exact absurd h (by simp)
    | cons c cs =>
      rw [matchR_cls_cons, Bool.and_eq_true] at h
      rw [List.cons_append, matchR_cls_cons, Bool.and_eq_true]
      refine ⟨h.1, ?_⟩
      have h2 := tr (c :: bef) cs h.2
      simpa [List.cons_append] using h2
  | seq a b ha hb iha ihb =>
    intro bef rest k k' tr h
    rw [matchR_seq] at h
    rw [matchR_seq]
    refine iha bef rest _ _ ?_ h
    intro b2 r2 h2
    exact ihb b2 r2 k k' tr h2
  | alt a b ha hb iha ihb =>
    intro bef rest k k' tr h
    rw [matchR_alt, Bool.or_eq_true] at h
    rw [matchR_alt, Bool.or_eq_true]
    rcases h with h | h
    · exact Or.inl (iha bef rest k k' tr h)
    · exact Or.inr (ihb bef rest k k' tr h)
  | star p =>
    intro bef rest k k' tr h
    rw [matchR_star] at h
    rw [matchR_star]
    obtain ⟨n, hn, hall, hk⟩ := starLoop_split p rest bef k h
    have hk' := tr _ _ hk
    have hsplit : rest ++ ws2 = rest.take n ++ (rest.drop n ++ ws2) := by
      rw [← List.append_assoc, List.take_append_drop]
    rw [hsplit]
    apply starLoop_intro p (rest.take n) hall (bef ++ ws1r) (rest.drop n ++ ws2) k'
    have he : ((rest.take n).reverse ++ bef) ++ ws1r =
        (rest.take n).reverse ++ (bef ++ ws1r) := by rw [List.append_assoc]
    rw [← he]
    exact hk'
  | lkb pos s hcol =>
    intro bef rest k k' tr h
    rw [matchR_lkb, Bool.and_eq_true] at h
    rw [matchR_lkb, Bool.and_eq_true]
    refine ⟨?_, tr bef rest h.2⟩
    rw [befChk_colon_ext s bef ws1r hcol hws1]
    exact h.1
  | lkaCls pos =>
    intro bef rest k k' tr h
    rw [matchR_lka, Bool.and_eq_true] at h
    obtain ⟨h1, h2⟩ := h
    rw [matchR_lka, Bool.and_eq_true]
    refine ⟨?_, tr bef rest h2⟩
    cases rest with
    | nil =>
      rw [matchR_cls_nil] at h1
      rw [List.nil_append]
      cases ws2 with
      | nil => rw [matchR_cls_nil]; exact h1
      | cons e t =>
        rw [matchR_cls_cons]
        have he : chEq ':' e = false := by
          have hne : e ≠ ':' := ws_ne_colon e (hws2 e (by simp))
          simpa [chEq] using hne
        rw [he]
        simpa using h1
    | cons c cs =>
      rw [matchR_cls_cons] at h1
      rw [List.cons_append, matchR_cls_cons]
      simpa using h1
  | lkaTW =>
    intro bef rest k k' tr h
    rw [matchR_lka, Bool.and_eq_true] at h
    obtain ⟨h1, h2⟩ := h
    rw [matchR_lka, Bool.and_eq_true]
    refine ⟨?_, tr bef rest h2⟩
    rw [twoWild_eval] at h1
    rw [twoWild_eval, hasCC2_append_nocolon ws2 (fun c hc => ws_ne_colon c (hws2 c hc)) rest]
    exact h1

theorem stable_repUpTo (p : Char → Bool) : ∀ n, Stable (repUpTo p n) := by
  intro n
  induction n with
  | zero => exact Stable.eps
  | succ m ih => exact Stable.alt _ _ Stable.eps (Stable.seq _ _ (Stable.cls p) ih)

theorem stable_powR (r : Rx) (hr : Stable r) : ∀ n, Stable (powR r n) := by
  intro n
  induction n with
  | zero => exact Stable.eps
  | succ m ih => exact Stable.seq _ _ hr ih

theorem stable_colonRule : Stable colonRule :=
  Stable.alt _ _ (Stable.lkb true [':', ':'] (by decide))
    (Stable.seq _ _ (Stable.lkb false [':', ':'] (by decide)) (Stable.cls _))

theorem stable_groupUnit : Stable groupUnit :=
  Stable.seq _ _ (stable_repUpTo isHexD 4) stable_colonRule

theorem stable_endRule : Stable endRule :=
  Stable.alt _ _ (Stable.lkb true [':', ':'] (by decide))
    (Stable.alt _ _ (Stable.lkb false [':'] (by decide))
      (Stable.seq _ _ (Stable.lkb true [':'] (by decide))
        (Stable.seq _ _ (Stable.lkb false [':', ':'] (by decide)) (Stable.cls _))))

theorem stable_v6TailHex : Stable v6TailHex :=
  Stable.seq _ _ (stable_repUpTo isHexD 4)
    (Stable.seq _ _ stable_colonRule
      (Stable.seq _ _ (stable_repUpTo isHexD 4) stable_endRule))

theorem stable_startRule : Stable startRule :=
  Stable.alt _ _ (Stable.lkaCls false)
    (Stable.seq _ _ (Stable.cls _) (Stable.lkaCls true))

/-- The IPv6 pattern minus its leading and trailing `\s*`. -/
def ipv6Core : Rx :=
  .seq (.lka false twoWild)
  (.seq startRule
  (.seq (powR groupUnit 6)
  (.alt v6TailHex v4Tail)))

theorem stable_core : Stable ipv6Core :=
  Stable.seq _ _ Stable.lkaTW
    (Stable.seq _ _ stable_startRule
      (Stable.seq _ _ (stable_powR groupUnit stable_groupUnit 6)
        (Stable.alt _ _ stable_v6TailHex (stable_of_plain v4Tail plain_v4Tail))))

theorem star_ws_all (bef rest : List Char) (h : starLoop isWs bef rest emptyK = true) :
    ∀ c ∈ rest, isWs c = true := by
  obtain ⟨n, _, hall, hk⟩ := starLoop_split isWs rest bef emptyK h
  have hdrop : rest.drop n = [] := by simpa [emptyK] using hk
  have htake : rest.take n = rest := by
    have h2 := List.take_append_drop n rest
    rw [hdrop, List.append_nil] at h2
    exact h2
  rw [← htake]
  exact hall

theorem star_ws_intro (bef rest : List Char) (h : ∀ c ∈ rest, isWs c = true) :
    starLoop isWs bef rest emptyK = true := by
  have h2 := starLoop_intro isWs rest h bef [] emptyK (by rfl)
  simpa using h2

theorem trail_transfer (ws1r ws2 : List Char) (hws2 : ∀ c ∈ ws2, isWs c = true) :
    ∀ b2 r2, starLoop isWs b2 r2 emptyK = true →
      starLoop isWs (b2 ++ ws1r) (r2 ++ ws2) emptyK = true := by
  intro b2 r2 h
  apply star_ws_intro
  intro c hc
  rcases List.mem_append.mp hc with h1 | h1
  · exact star_ws_all b2 r2 h c h1
  · exact hws2 c h1

theorem matchR_congr (r : Rx) (bef rest : List Char)
    (k1 k2 : List Char → List Char → Bool) (h : ∀ b2 r2, k1 b2 r2 = k2 b2 r2) :
    matchR r bef rest k1 = matchR r bef rest k2 := by
  have he : k1 = k2 := funext fun b2 => funext fun r2 => h b2 r2
  rw [he]

theorem seq_star_out (x : Rx) (bef rest : List Char) :
    matchR (.seq x (.star isWs)) bef rest emptyK =
      matchR x bef rest (fun b r => starLoop isWs b r emptyK) := by
  rw [matchR_seq]
  rfl

theorem rest_to_core (bef rest : List Char) :
    matchR (.seq (.lka false twoWild)
      (.seq startRule (.seq (powR groupUnit 6)
        (.seq (.alt v6TailHex v4Tail) (.star isWs))))) bef rest emptyK =
    matchR ipv6Core bef rest (fun b2 r2 => starLoop isWs b2 r2 emptyK) := by
  rw [show ipv6Core = .seq (.lka false twoWild) (.seq startRule (.seq (powR groupUnit 6)
    (.alt v6TailHex v4Tail))) from rfl]
  rw [matchR_seq, matchR_seq]
  apply matchR_congr
  intro b1 r1
  show matchR _ b1 r1 emptyK = matchR _ b1 r1 (fun b2 r2 => starLoop isWs b2 r2 emptyK)
  rw [matchR_seq, matchR_seq]
  apply matchR_congr
  intro b2 r2
  show matchR _ b2 r2 emptyK = matchR _ b2 r2 (fun b3 r3 => starLoop isWs b3 r3 emptyK)
  rw [matchR_seq, matchR_seq]
  apply matchR_congr
  intro b3 r3
  show matchR (.seq (.alt v6TailHex v4Tail) (.star isWs)) b3 r3 emptyK =
    matchR (.alt v6TailHex v4Tail) b3 r3 (fun b4 r4 => starLoop isWs b4 r4 emptyK)
  exact seq_star_out (.alt v6TailHex v4Tail) b3 r3

/-- C10: the IPv6 branch of the validator accepts arbitrary leading and
trailing whitespace (the six Python `\s` byte characters, newlines included)
around any accepted string: if `is_valid_ipv6 s` holds and `t` is `s`
surrounded by whitespace characters, then `is_valid_ipv6 t` holds too. -/
theorem c10_theorem (s t : String) (ws1 ws2 : List Char)
    (hws1 : ∀ c ∈ ws1, isWs c = true) (hws2 : ∀ c ∈ ws2, isWs c = true)
    (hacc : is_valid_ipv6 s = true)
    (ht : t.toList = ws1 ++ s.toList ++ ws2) :
    is_valid_ipv6 t = true := by
  rw [is_valid_ipv6] at hacc
  rw [is_valid_ipv6, ht]
  have h0 : starLoop isWs [] s.toList
      (fun b1 r1 => matchR (.seq (.lka false twoWild)
        (.seq startRule (.seq (powR groupUnit 6)
          (.seq (.alt v6TailHex v4Tail) (.star isWs))))) b1 r1 emptyK) = true := hacc
  obtain ⟨n, _, hall, hk⟩ := starLoop_split isWs s.toList []
    (fun b1 r1 => matchR (.seq (.lka false twoWild)
      (.seq startRule (.seq (powR groupUnit 6)
        (.seq (.alt v6TailHex v4Tail) (.star isWs))))) b1 r1 emptyK) h0
  have hk1 : matchR (.seq (.lka false twoWild)
      (.seq startRule (.seq (powR groupUnit 6)
        (.seq (.alt v6TailHex v4Tail) (.star isWs)))))
      ((s.toList.take n).reverse ++ []) (s.toList.drop n) emptyK = true := hk
  have hk2 : matchR ipv6Core ((s.toList.take n).reverse ++ [])
      (s.toList.drop n) (fun b2 r2 => starLoop isWs b2 r2 emptyK) = true := by
    rw [← rest_to_core]
    exact hk1
  have hws1r : ∀ c ∈ ws1.reverse, isWs c = true := by
    intro c hc
    exact hws1 c (by simpa using hc)
  have hext := ext_sim ws1.reverse ws2 hws1r hws2 ipv6Core stable_core
    ((s.toList.take n).reverse ++ []) (s.toList.drop n)
    (fun b2 r2 => starLoop isWs b2 r2 emptyK)
    (fun b2 r2 => starLoop isWs b2 r2 emptyK)
    (trail_transfer ws1.reverse ws2 hws2) hk2
  show starLoop isWs [] (ws1 ++ s.toList ++ ws2)
    (fun b1 r1 => matchR (.seq (.lka false twoWild)
      (.seq startRule (.seq (powR groupUnit 6)
        (.seq (.alt v6TailHex v4Tail) (.star isWs))))) b1 r1 emptyK) = true
  have hsplit : ws1 ++ s.toList ++ ws2 =
      (ws1 ++ s.toList.take n) ++ (s.toList.drop n ++ ws2) := by
    conv_lhs => rw [← List.take_append_drop n s.toList]
    simp only [List.append_assoc]
  rw [hsplit]
  apply starLoop_intro isWs (ws1 ++ s.toList.take n)
    (by
      intro c hc
      rcases List.mem_append.mp hc with h1 | h1
      · exact hws1 c h1
      · exact hall c h1)
    [] (s.toList.drop n ++ ws2)
  show matchR (.seq (.lka false twoWild)
      (.seq startRule (.seq (powR groupUnit 6)
        (.seq (.alt v6TailHex v4Tail) (.star isWs)))))
    ((ws1 ++ s.toList.take n).reverse ++ [])
    (s.toList.drop n ++ ws2) emptyK = true
  rw [rest_to_core]
  have heq : ((s.toList.take n).reverse ++ []) ++ ws1.reverse =
      (ws1 ++ s.toList.take n).reverse ++ [] := by simp
  rw [← heq]
  exact hext

/-- Witness for C10: "::1" is accepted, and so is " ::1\n", obtained from it
by adding a leading space and a trailing newline. -/
theorem c10_witness : is_valid_ipv6 " ::1\n" = true :=
  c10_theorem "::1" " ::1\n" [' '] ['\n'] (by decide) (by decide) (by decide) (by decide)
